import Mathlib

/-!
Verification of the constrained-turn shortest-path search of the
advent-of-code-2023-rust repository (day17: `City::min_heat`,
`PathSearch::find_path` in src/day17/src/puzzle.rs), over a shallow
embedding of the Rust code.  The `aoc` crate's `direction` and `grid`
modules are not part of the provided sources; the few small operations
the search uses from them are modelled from the specification and are
marked as such in their doc comments.
-/

namespace Day17

/-- Modelled from the spec: the four cardinal directions (the aoc crate's
`direction::Dir` enumeration is not in the provided sources). -/
inductive Dir
  | north
  | south
  | west
  | east
deriving DecidableEq

/-- Modelled from the spec: `opposite` maps North↔South, East↔West
(`Dir::opposite`, not in the provided sources). -/
def Dir.opposite : Dir → Dir
  | .north => .south
  | .south => .north
  | .west => .east
  | .east => .west

/-- A signed position or offset into a grid
(`GridPos` in src/aoc/src/grid/grid_pos.rs: a pair of `isize`). -/
structure GridPos where
  x : Int
  y : Int
deriving DecidableEq

instance : Add GridPos := ⟨fun a b => ⟨a.x + b.x, a.y + b.y⟩⟩

instance : Sub GridPos := ⟨fun a b => ⟨a.x - b.x, a.y - b.y⟩⟩

/-- The unit step vector of a direction in screen coordinates
(`impl From<Dir> for GridPos` in src/aoc/src/grid/grid_pos.rs):
North=(0,-1), South=(0,1), West=(-1,0), East=(1,0). -/
def Dir.offset : Dir → GridPos
  | .north => ⟨0, -1⟩
  | .south => ⟨0, 1⟩
  | .west => ⟨-1, 0⟩
  | .east => ⟨1, 0⟩

/-- Modelled from the spec: converting an offset to a direction is defined
exactly on the four unit vectors (`Dir::try_from`, not in the provided
sources; the spec calls any other argument a precondition violation). -/
def Dir.tryFrom (p : GridPos) : Option Dir :=
  if p = Dir.offset .north then some .north
  else if p = Dir.offset .south then some .south
  else if p = Dir.offset .west then some .west
  else if p = Dir.offset .east then some .east
  else none

/-- Modelled from the spec: the four cardinal neighbours of a position
(`GridPos::neighbours`, not in the provided sources; the search recovers a
direction from each neighbour offset with `Dir::try_from`, so the
neighbours are exactly the four unit-offset cells). -/
def GridPos.neighbours (p : GridPos) : List GridPos :=
  [⟨p.x - 1, p.y⟩, ⟨p.x + 1, p.y⟩, ⟨p.x, p.y - 1⟩, ⟨p.x, p.y + 1⟩]

/-- Modelled from the spec: a dense row-major grid of non-negative integer
cell costs with bounds-checked access (`Grid<usize>`; the grid module is
not in the provided sources).  Index formula: `index = y * width + x`. -/
structure Grid where
  width : Nat
  height : Nat
  data : List Nat
deriving DecidableEq

/-- The spec's structural invariant of a grid: the buffer length always
equals `width * height`. -/
def GridWF (g : Grid) : Prop := g.data.length = g.width * g.height

/-- Modelled from the spec: the checked accessor returns absence for every
position outside `[0,width) x [0,height)` and the stored value otherwise. -/
def Grid.get (g : Grid) (p : GridPos) : Option Nat :=
  if 0 ≤ p.x ∧ p.x < (g.width : Int) ∧ 0 ≤ p.y ∧ p.y < (g.height : Int) then
    g.data.get? (p.y.toNat * g.width + p.x.toNat)
  else none

/-- Modelled from the spec: the bounds predicate used by neighbour
expansion to prune before indexing (`GridPos::in_grid`). -/
def GridPos.inGrid (p : GridPos) (g : Grid) : Bool :=
  decide (0 ≤ p.x ∧ p.x < (g.width : Int) ∧ 0 ≤ p.y ∧ p.y < (g.height : Int))

/-- A search-space state (`SearchNode` in src/day17/src/puzzle.rs):
position, the run of identical consecutive directions most recently taken,
and the priority key.  The Rust struct's `search` field is a shared handle
back to the owning search session and carries no state of its own; it is
not part of the embedded data (it takes no part in `Hash`/`PartialEq`). -/
structure SearchNode where
  pos : GridPos
  previous_same_dirs : List Dir
  f_score : Nat
deriving DecidableEq

/-- The projection of a node used by both `Hash` and `PartialEq`:
position and run. -/
def SearchNode.key (n : SearchNode) : GridPos × List Dir :=
  (n.pos, n.previous_same_dirs)

/-- The embedded `PartialEq for SearchNode`: two nodes are equal exactly
when position and run agree (`f_score` and the session handle ignored). -/
def nodeEqb (a b : SearchNode) : Bool :=
  decide (a.pos = b.pos) && decide (a.previous_same_dirs = b.previous_same_dirs)

/-- Keys of the search session's hash maps: the (position, run) pair that
`Hash`/`PartialEq` of `SearchNode` observe. -/
abbrev NK := GridPos × List Dir

/-- The canonical node carrying a given key (cost field zeroed, exactly as
`find_path` builds child nodes before relaxation). -/
def nodeOf (k : NK) : SearchNode := ⟨k.1, k.2, 0⟩

/-- Association-list embedding of `HashMap` lookup keyed by node keys. -/
def alookup {α : Type} : List (NK × α) → NK → Option α
  | [], _ => none
  | (k2, v) :: t, k => if k2 = k then some v else alookup t k

/-- Association-list embedding of `HashMap::insert` (replaces any existing
binding of the key). -/
def ainsert {α : Type} (m : List (NK × α)) (k : NK) (v : α) : List (NK × α) :=
  (k, v) :: m.filter (fun e => decide (e.1 ≠ k))

/-- Embedding of `BinaryHeap::pop` under the reversed `f_score` ordering of
`SearchNode`: removes one element of minimal `f_score` (tie order among
equal keys is unspecified by `BinaryHeap`; this embedding takes the
earliest). -/
def popMin : List SearchNode → Option (SearchNode × List SearchNode)
  | [] => none
  | n :: rest =>
    match popMin rest with
    | none => some (n, [])
    | some (m, rest2) =>
      if n.f_score ≤ m.f_score then some (n, rest) else some (m, n :: rest2)

/-- The mutable state of a `PathSearch` session during `find_path`: the
priority frontier, the best-known-cost map and the predecessor map. -/
structure SearchState where
  frontier : List SearchNode
  g_scores : List (NK × Nat)
  parents : List (NK × SearchNode)
deriving DecidableEq

/-- Embedding of `SearchNode::backtrack`: the popped node's position
followed by the positions along the predecessor chain.  The Rust loop
runs until the predecessor map has no entry; the embedding carries fuel,
which callers choose at least as large as any realizable chain. -/
def backtrackFrom (parents : List (NK × SearchNode)) :
    Nat → SearchNode → List GridPos
  | fuel, n =>
    match fuel, alookup parents n.key with
    | _, none => [n.pos]
    | 0, some _ => [n.pos]
    | f + 1, some p => n.pos :: backtrackFrom parents f p

/-- The per-neighbour body of the `filter_map` in `find_path`
(src/day17/src/puzzle.rs lines 144-183): recover the step direction, drop
reversals, drop turns taken before `min_before_turn` straight steps,
extend or reset the run, and drop runs that would exceed
`max_before_turn`. -/
def expandChild (minR maxR : Nat) (s : SearchNode) (npos : GridPos) :
    Option SearchNode :=
  match Dir.tryFrom (npos - s.pos) with
  | none => none
  | some dir =>
    if s.previous_same_dirs.getLast? = some dir.opposite then none
    else if s.previous_same_dirs.getLast?.isSome ∧
        s.previous_same_dirs.getLast? ≠ some dir ∧
        s.previous_same_dirs.length < minR then none
    else if (if s.previous_same_dirs.getLast? = some dir then
        s.previous_same_dirs ++ [dir] else [dir]).length = maxR + 1 then none
    else
      some
        { pos := npos
          previous_same_dirs :=
            if s.previous_same_dirs.getLast? = some dir then
              s.previous_same_dirs ++ [dir]
            else [dir]
          f_score := 0 }

/-- The expansion of a popped state: in-bounds neighbours passed through
`expandChild` (the `neighbours … filter in_grid … filter_map` pipeline). -/
def expandChildren (city : Grid) (minR maxR : Nat) (s : SearchNode) :
    List SearchNode :=
  (s.pos.neighbours.filter (fun p => p.inGrid city)).filterMap
    (expandChild minR maxR s)

/-- The relaxation body of the `for_each` in `find_path`
(src/day17/src/puzzle.rs lines 184-207): when the tentative cost beats any
recorded cost (or none is recorded), record cost and predecessor, and push
the child onto the frontier unless an equal node is already there. -/
def relaxChild (city : Grid) (s : SearchNode) (st : SearchState)
    (child : SearchNode) : SearchState :=
  match alookup st.g_scores s.key, city.get child.pos with
  | some state_g, some edge_cost =>
    let tentative := state_g + edge_cost
    let improved :=
      match alookup st.g_scores child.key with
      | none => true
      | some existing_g => decide (tentative < existing_g)
    if improved then
      { parents := ainsert st.parents child.key s
        g_scores := ainsert st.g_scores child.key tentative
        frontier :=
          if st.frontier.any (fun n => nodeEqb n child) then st.frontier
          else st.frontier ++ [{ child with f_score := tentative }] }
    else st
  | _, _ => st

/-- One full expansion step of the loop after popping `s`: relax every
generated child in order, starting from the frontier with `s` removed. -/
def stepState (city : Grid) (minR maxR : Nat) (s : SearchNode)
    (rest : List SearchNode) (st : SearchState) : SearchState :=
  (expandChildren city minR maxR s).foldl (relaxChild city s)
    { st with frontier := rest }

/-- The outcome of `find_path`: a reconstructed path, the normal "no path"
result (`None` in Rust), or exhaustion of the embedding's fuel (which the
termination theorem shows is avoidable). -/
inductive SearchResult
  | found (path : List GridPos)
  | noPath
  | outOfFuel
deriving DecidableEq

/-- The `while let Some(state) = frontier.pop()` loop of `find_path`:
pop a cheapest state; if it sits on the target with run longer than
`min_before_turn`, answer with its backtrack; otherwise expand and
relax. -/
def findPathLoop (city : Grid) (minR maxR : Nat) (target : GridPos) :
    Nat → SearchState → SearchResult
  | 0, _ => .outOfFuel
  | fuel + 1, st =>
    match popMin st.frontier with
    | none => .noPath
    | some (s, rest) =>
      if s.pos = target ∧ minR < s.previous_same_dirs.length then
        .found (backtrackFrom st.parents st.g_scores.length s)
      else
        findPathLoop city minR maxR target fuel
          (stepState city minR maxR s rest st)

/-- The start state of a search: the start position with an empty
direction run and priority 0. -/
def startNode (start_pos : GridPos) : SearchNode := ⟨start_pos, [], 0⟩

/-- The initial session state of `find_path`: cost 0 recorded for the
start state, the start state alone on the frontier, no predecessors. -/
def initState (start_pos : GridPos) : SearchState :=
  { frontier := [startNode start_pos]
    g_scores := [((startNode start_pos).key, 0)]
    parents := [] }

/-- Embedding of `PathSearch::find_path`. -/
def find_path (city : Grid) (start_pos target_pos : GridPos)
    (minR maxR fuel : Nat) : SearchResult :=
  findPathLoop city minR maxR target_pos fuel (initState start_pos)

/-- Embedding of `City::min_heat`: search from (0,0) to
(width-1, height-1), drop the start position (the last element of the
backtracked path) and sum the cell costs of the remaining positions. -/
def min_heat (city : Grid) (minR maxR fuel : Nat) : Option Nat :=
  match find_path city ⟨0, 0⟩ ⟨(city.width : Int) - 1, (city.height : Int) - 1⟩
      minR maxR fuel with
  | .found path => some ((path.dropLast.map (fun p => (city.get p).getD 0)).sum)
  | _ => none

/-- One constrained transition on map keys: the key reached by stepping a
state to the cell `npos` under the search's own move rules. -/
def stepNK (minR maxR : Nat) (k : NK) (npos : GridPos) : Option NK :=
  (expandChild minR maxR (nodeOf k) npos).map SearchNode.key

/-- The key reached from `k` by a sequence of entered cells, all of which
must be in bounds and each step of which must obey the no-reverse, minimum
run and maximum run rules; `none` when some step is illegal. -/
def walkEnd (city : Grid) (minR maxR : Nat) : NK → List GridPos → Option NK
  | k, [] => some k
  | k, np :: rest =>
    if np.inGrid city = true then
      match stepNK minR maxR k np with
      | some k2 => walkEnd city minR maxR k2 rest
      | none => none
    else none

/-- A path (given start-first as a list of positions) from `start` to
`target` that satisfies the no-reverse, `minR` and `maxR` constraints,
including the goal-test requirement that the final run strictly exceeds
`minR`. -/
def ValidConstrainedPath (city : Grid) (minR maxR : Nat)
    (start target : GridPos) (ps : List GridPos) : Prop :=
  ∃ moves k, ps = start :: moves ∧
    walkEnd city minR maxR (start, ([] : List Dir)) moves = some k ∧
    k.1 = target ∧ minR < k.2.length

/-- The accumulated cost of a start-first path: the costs of every cell
entered, the start cell excluded. -/
def heatFromStart (city : Grid) (ps : List GridPos) : Nat :=
  ((ps.drop 1).map (fun p => (city.get p).getD 0)).sum

/-- The accumulated cost of a backtracked (goal-first) path: the costs of
every cell except the final start cell, exactly as `min_heat` sums after
`path.pop()`. -/
def pathHeat (city : Grid) (ps : List GridPos) : Nat :=
  (ps.dropLast.map (fun p => (city.get p).getD 0)).sum

/-- The loop states `find_path` can reach: the initial session state, and
the result of expanding any popped, non-accepted state. -/
inductive Reachable (city : Grid) (minR maxR : Nat) (start target : GridPos) :
    SearchState → Prop
  | init : Reachable city minR maxR start target (initState start)
  | step {st : SearchState} {s : SearchNode} {rest : List SearchNode} :
      Reachable city minR maxR start target st →
      popMin st.frontier = some (s, rest) →
      ¬(s.pos = target ∧ minR < s.previous_same_dirs.length) →
      Reachable city minR maxR start target (stepState city minR maxR s rest st)

/-- All states held anywhere in a session state have run length at most
`maxR`. -/
def nodesBounded (maxR : Nat) (st : SearchState) : Prop :=
  (∀ n ∈ st.frontier, n.previous_same_dirs.length ≤ maxR) ∧
  (∀ e ∈ st.g_scores, (e : NK × Nat).1.2.length ≤ maxR) ∧
  (∀ e ∈ st.parents, (e : NK × SearchNode).1.2.length ≤ maxR ∧
    e.2.previous_same_dirs.length ≤ maxR)

/-- Every recorded predecessor edge is a legal move: the child sits one
unit step from the parent in the direction ending the child's run, and
that direction is never the exact opposite of the parent's last
direction. -/
def parentsOK (parents : List (NK × SearchNode)) : Prop :=
  ∀ e ∈ parents, ∃ d : Dir,
    (e : NK × SearchNode).1.1 = e.2.pos + d.offset ∧
    e.1.2.getLast? = some d ∧
    ∀ pd : Dir, e.2.previous_same_dirs.getLast? = some pd → d ≠ pd.opposite

/-- No two adjacent entries of a position list are equal. -/
def StepApart (l : List GridPos) : Prop :=
  ∀ (i : Nat) (x y : GridPos), l.get? i = some x → l.get? (i + 1) = some y →
    x ≠ y

/-- No entry of a position list equals the entry two places later (no
immediate backtrack step). -/
def NoRevTriple (l : List GridPos) : Prop :=
  ∀ (i : Nat) (x y : GridPos), l.get? i = some x → l.get? (i + 2) = some y →
    x ≠ y

/-! The Dijkstra invariant of the search loop, used for cost optimality
and termination.  `P` is the history of popped states in pop order
together with their (final) recorded costs, and `m` is the cost of the
most recent pop. -/
/-- The map key of the start state. -/
def startKey (p : GridPos) : NK := (p, [])

/-- The loop invariant of `find_path`: costs recorded for popped and
frontier states, pop costs monotone, every recorded state popped or on
the frontier, recorded costs bounded by the last pop plus the entry
cost of the cell, popped states fully relaxed, and every recorded
non-start state carrying a predecessor popped earlier at matching
cost. -/
structure Inv (city : Grid) (minR maxR : Nat) (start target : GridPos)
    (st : SearchState) (P : List (NK × Nat)) (m : Nat) : Prop where
  gNodup : (st.g_scores.map Prod.fst).Nodup
  startG : alookup st.g_scores (startKey start) = some 0
  startPar : alookup st.parents (startKey start) = none
  frontG : ∀ n ∈ st.frontier, alookup st.g_scores n.key = some n.f_score
  frontGe : ∀ n ∈ st.frontier, m ≤ n.f_score
  frontNodup : (st.frontier.map SearchNode.key).Nodup
  frontNotPopped : ∀ n ∈ st.frontier, ∀ v, (n.key, v) ∉ P
  popG : ∀ e ∈ P, alookup st.g_scores (e : NK × Nat).1 = some e.2
  popNotGoal : ∀ e ∈ P, ¬((e : NK × Nat).1.1 = target ∧ minR < e.1.2.length)
  popLe : ∀ e ∈ P, (e : NK × Nat).2 ≤ m
  popNodup : (P.map Prod.fst).Nodup
  recCases : ∀ e ∈ st.g_scores,
    (∃ v, ((e : NK × Nat).1, v) ∈ P) ∨ ∃ n ∈ st.frontier, n.key = e.1
  recBound : ∀ e ∈ st.g_scores, (e : NK × Nat).1 ≠ startKey start →
    ∃ ec, city.get e.1.1 = some ec ∧ e.2 ≤ m + ec
  popClosed : ∀ e ∈ P, ∀ np, np.inGrid city = true →
    ∀ c, expandChild minR maxR (nodeOf (e : NK × Nat).1) np = some c →
      ∃ v2 ec, alookup st.g_scores c.key = some v2 ∧
        city.get c.pos = some ec ∧ v2 ≤ e.2 + ec
  parentOf : ∀ e ∈ st.g_scores, (e : NK × Nat).1 ≠ startKey start →
    ∃ pn pv ec, alookup st.parents e.1 = some pn ∧ (pn.key, pv) ∈ P ∧
      city.get e.1.1 = some ec ∧ e.2 = pv + ec ∧
      e.1.1.inGrid city = true ∧
      expandChild minR maxR (nodeOf pn.key) e.1.1 = some (nodeOf e.1)
  parentEarlier : ∀ i (hi : i < P.length),
    (P.get ⟨i, hi⟩).1 ≠ startKey start →
    ∃ pn pv, alookup st.parents (P.get ⟨i, hi⟩).1 = some pn ∧
      (pn.key, pv) ∈ P.take i

/-- The invariant holding part way through the relaxation fold of one
iteration: the popped state is `s`, `P` is the previous pop history, and
`done` is the prefix of the generated children already relaxed. -/
structure MidInv (city : Grid) (minR maxR : Nat) (start target : GridPos)
    (s : SearchNode) (P : List (NK × Nat)) (stm : SearchState)
    (done : List SearchNode) : Prop where
  gNodup : (stm.g_scores.map Prod.fst).Nodup
  startG : alookup stm.g_scores (startKey start) = some 0
  startPar : alookup stm.parents (startKey start) = none
  sG : alookup stm.g_scores s.key = some s.f_score
  frontG : ∀ n ∈ stm.frontier, alookup stm.g_scores n.key = some n.f_score
  frontGe : ∀ n ∈ stm.frontier, s.f_score ≤ n.f_score
  frontNodup : (stm.frontier.map SearchNode.key).Nodup
  frontNotPopped : ∀ n ∈ stm.frontier, ∀ v,
    (n.key, v) ∉ P ++ [(s.key, s.f_score)]
  popG : ∀ e ∈ P ++ [(s.key, s.f_score)],
    alookup stm.g_scores (e : NK × Nat).1 = some e.2
  popNotGoal : ∀ e ∈ P ++ [(s.key, s.f_score)],
    ¬((e : NK × Nat).1.1 = target ∧ minR < e.1.2.length)
  popLe : ∀ e ∈ P ++ [(s.key, s.f_score)], (e : NK × Nat).2 ≤ s.f_score
  popNodup : ((P ++ [(s.key, s.f_score)]).map Prod.fst).Nodup
  recCases : ∀ e ∈ stm.g_scores,
    (∃ v, ((e : NK × Nat).1, v) ∈ P ++ [(s.key, s.f_score)]) ∨
    ∃ n ∈ stm.frontier, n.key = e.1
  recBound : ∀ e ∈ stm.g_scores, (e : NK × Nat).1 ≠ startKey start →
    ∃ ec, city.get e.1.1 = some ec ∧ e.2 ≤ s.f_score + ec
  popClosedOld : ∀ e ∈ P, ∀ np, np.inGrid city = true →
    ∀ c, expandChild minR maxR (nodeOf (e : NK × Nat).1) np = some c →
      ∃ v2 ec, alookup stm.g_scores c.key = some v2 ∧
        city.get c.pos = some ec ∧ v2 ≤ e.2 + ec
  closedDone : ∀ c ∈ done, ∃ v2 ec, alookup stm.g_scores c.key = some v2 ∧
    city.get c.pos = some ec ∧ v2 ≤ s.f_score + ec
  parentOf : ∀ e ∈ stm.g_scores, (e : NK × Nat).1 ≠ startKey start →
    ∃ pn pv ec, alookup stm.parents e.1 = some pn ∧
      (pn.key, pv) ∈ P ++ [(s.key, s.f_score)] ∧
      city.get e.1.1 = some ec ∧ e.2 = pv + ec ∧
      e.1.1.inGrid city = true ∧
      expandChild minR maxR (nodeOf pn.key) e.1.1 = some (nodeOf e.1)
  parentEarlier : ∀ i (hi : i < (P ++ [(s.key, s.f_score)]).length),
    ((P ++ [(s.key, s.f_score)]).get ⟨i, hi⟩).1 ≠ startKey start →
    ∃ pn pv,
      alookup stm.parents ((P ++ [(s.key, s.f_score)]).get ⟨i, hi⟩).1 =
        some pn ∧
      (pn.key, pv) ∈ (P ++ [(s.key, s.f_score)]).take i

/-- The accumulated cost of a list of entered cells. -/
def walkCost (city : Grid) (moves : List GridPos) : Nat :=
  (moves.map (fun p => (city.get p).getD 0)).sum

/-- All direction runs of length at most `n`, enumerated as a list. -/
def allRuns : Nat → List (List Dir)
  | 0 => [[]]
  | n + 1 =>
    allRuns n ++
      ((allRuns n).filter (fun l => decide (l.length = n))).bind
        (fun l => [Dir.north, Dir.south, Dir.west, Dir.east].map
          (fun d => l ++ [d]))

/-- All in-bounds positions of a grid, enumerated as a list. -/
def gridPositions (city : Grid) : List GridPos :=
  (List.range city.height).bind (fun y =>
    (List.range city.width).map (fun x =>
      GridPos.mk (Int.ofNat x) (Int.ofNat y)))

/-- The finite universe of states the search over a grid ranges over:
in-bounds positions paired with runs no longer than `maxR`. -/
def keyUniverse (city : Grid) (maxR : Nat) : List NK :=
  (gridPositions city).bind (fun p => (allRuns maxR).map (fun r => (p, r)))

/-- The number of universe states not yet holding a recorded cost. -/
def unrecorded (city : Grid) (maxR : Nat) (g : List (NK × Nat)) : Nat :=
  (keyUniverse city maxR).countP (fun k => (alookup g k).isNone)

/-- The termination measure of the search loop: unrecorded universe
states plus the frontier length.  It drops by at least one per
iteration. -/
def loopMeasure (city : Grid) (maxR : Nat) (st : SearchState) : Nat :=
  unrecorded city maxR st.g_scores + st.frontier.length

/-- The runs of the loop in which the frontier eventually empties with no
popped state passing the goal test — the exact situation in which
`find_path` answers `None`. -/
inductive FrontierEmpties (city : Grid) (minR maxR : Nat) (target : GridPos) :
    SearchState → Prop
  | empty {st : SearchState} : popMin st.frontier = none →
      FrontierEmpties city minR maxR target st
  | step {st : SearchState} {s : SearchNode} {rest : List SearchNode} :
      popMin st.frontier = some (s, rest) →
      ¬(s.pos = target ∧ minR < s.previous_same_dirs.length) →
      FrontierEmpties city minR maxR target
        (stepState city minR maxR s rest st) →
      FrontierEmpties city minR maxR target st

/-! Basic facts about positions, directions and the expansion rule. -/
theorem GridPos.add_def (a b : GridPos) : a + b = ⟨a.x + b.x, a.y + b.y⟩ := rfl

theorem GridPos.sub_def (a b : GridPos) : a - b = ⟨a.x - b.x, a.y - b.y⟩ := rfl

theorem GridPos.sub_eq_iff (a b c : GridPos) : a - b = c ↔ a = b + c := by
  cases a; cases b; cases c
  simp only [GridPos.sub_def, GridPos.add_def, GridPos.mk.injEq]
  omega

theorem Dir.tryFrom_eq_some_iff (v : GridPos) (d : Dir) :
    Dir.tryFrom v = some d ↔ v = d.offset := by
  cases d <;> (
    unfold Dir.tryFrom
    split_ifs with h1 h2 h3 h4 <;>
      simp_all [Dir.offset, GridPos.mk.injEq] <;> omega)

theorem add_offset_sub (p : GridPos) (d : Dir) : (p + d.offset) - p = d.offset := by
  rw [GridPos.sub_eq_iff]

theorem mem_neighbours_iff (p np : GridPos) :
    np ∈ p.neighbours ↔ ∃ d : Dir, np = p + d.offset := by
  constructor
  · intro h
    simp only [GridPos.neighbours, List.mem_cons, List.not_mem_nil, or_false] at h
    rcases h with h | h | h | h
    · refine ⟨.west, ?_⟩
      subst h
      simp only [Dir.offset, GridPos.add_def, GridPos.mk.injEq, true_and, and_true]
      omega
    · refine ⟨.east, ?_⟩
      subst h
      simp only [Dir.offset, GridPos.add_def, GridPos.mk.injEq, true_and, and_true]
      omega
    · refine ⟨.north, ?_⟩
      subst h
      simp only [Dir.offset, GridPos.add_def, GridPos.mk.injEq, true_and, and_true]
      omega
    · refine ⟨.south, ?_⟩
      subst h
      simp only [Dir.offset, GridPos.add_def, GridPos.mk.injEq, true_and, and_true]
      omega
  · rintro ⟨d, rfl⟩
    cases d <;>
      simp only [GridPos.neighbours, Dir.offset, GridPos.add_def, GridPos.mk.injEq,
        List.mem_cons, List.not_mem_nil, or_false, true_and, and_true] <;> omega

theorem Dir.ne_opposite : ∀ d : Dir, d ≠ d.opposite := by
  intro d
  cases d <;> simp [Dir.opposite]

/-- Inversion of a successful `expandChild`: every fact the move filter
guarantees about a produced child. -/
theorem expandChild_inv {minR maxR : Nat} {s c : SearchNode} {np : GridPos}
    (hc : expandChild minR maxR s np = some c) :
    ∃ d : Dir, np = s.pos + d.offset ∧ c.pos = np ∧ c.f_score = 0 ∧
      s.previous_same_dirs.getLast? ≠ some d.opposite ∧
      (∀ pd : Dir, s.previous_same_dirs.getLast? = some pd → pd ≠ d →
        minR ≤ s.previous_same_dirs.length) ∧
      c.previous_same_dirs =
        (if s.previous_same_dirs.getLast? = some d then
          s.previous_same_dirs ++ [d] else [d]) ∧
      c.previous_same_dirs.length ≠ maxR + 1 := by
  unfold expandChild at hc
  rcases htf : Dir.tryFrom (np - s.pos) with _ | d
  · rw [htf] at hc; exact absurd hc (by simp)
  rw [htf] at hc
  have hnp : np = s.pos + d.offset := by
    rw [← GridPos.sub_eq_iff]
    exact (Dir.tryFrom_eq_some_iff _ _).mp htf
  simp only at hc
  by_cases h1 : s.previous_same_dirs.getLast? = some d.opposite
  · rw [if_pos h1] at hc
    exact absurd hc (by simp)
  rw [if_neg h1] at hc
  by_cases h2 : s.previous_same_dirs.getLast?.isSome = true ∧
      s.previous_same_dirs.getLast? ≠ some d ∧
      s.previous_same_dirs.length < minR
  · rw [if_pos h2] at hc
    exact absurd hc (by simp)
  rw [if_neg h2] at hc
  by_cases h3 : s.previous_same_dirs.getLast? = some d
  · rw [if_pos h3] at hc
    by_cases h4 : (s.previous_same_dirs ++ [d]).length = maxR + 1
    · rw [if_pos h4] at hc
      exact absurd hc (by simp)
    rw [if_neg h4] at hc
    obtain rfl := Option.some.inj hc
    refine ⟨d, hnp, rfl, rfl, h1, ?_, ?_, ?_⟩
    · intro pd hpd hne
      rw [h3] at hpd
      exact absurd (Option.some.inj hpd).symm hne
    · rw [if_pos h3]
    · exact h4
  · rw [if_neg h3] at hc
    by_cases h5 : ([d] : List Dir).length = maxR + 1
    · rw [if_pos h5] at hc
      exact absurd hc (by simp)
    rw [if_neg h5] at hc
    obtain rfl := Option.some.inj hc
    refine ⟨d, hnp, rfl, rfl, h1, ?_, ?_, ?_⟩
    · intro pd hpd hne
      by_contra hlt
      exact h2 ⟨by simp [hpd], h3, by omega⟩
    · rw [if_neg h3]
    · exact h5

theorem Dir.tryFrom_offset (d : Dir) : Dir.tryFrom d.offset = some d :=
  (Dir.tryFrom_eq_some_iff _ _).mpr rfl

theorem Dir.offset_inj {a b : Dir} (h : a.offset = b.offset) : a = b := by
  cases a <;> cases b <;> simp_all [Dir.offset, GridPos.mk.injEq]

theorem GridPos.add_left_cancel {p a b : GridPos} (h : p + a = p + b) : a = b := by
  cases a; cases b; cases p
  simp only [GridPos.add_def, GridPos.mk.injEq] at h ⊢
  omega

theorem Dir.opposite_opposite (d : Dir) : d.opposite.opposite = d := by
  cases d <;> rfl

/-- Stepping a state by the unit offset of a direction reduces
`expandChild` to its chain of guards for that direction. -/
theorem expandChild_step (minR maxR : Nat) (s : SearchNode) (d2 : Dir) :
    expandChild minR maxR s (s.pos + d2.offset) =
      (if s.previous_same_dirs.getLast? = some d2.opposite then none
       else if s.previous_same_dirs.getLast?.isSome = true ∧
           s.previous_same_dirs.getLast? ≠ some d2 ∧
           s.previous_same_dirs.length < minR then none
       else if (if s.previous_same_dirs.getLast? = some d2 then
           s.previous_same_dirs ++ [d2] else [d2]).length = maxR + 1 then none
       else some ⟨s.pos + d2.offset,
         (if s.previous_same_dirs.getLast? = some d2 then
           s.previous_same_dirs ++ [d2] else [d2]), 0⟩) := by
  unfold expandChild
  rw [add_offset_sub, Dir.tryFrom_offset]

/-! Claim theorems: local transition rules and node identity. -/
/-- C9: two search states are equal iff their position and their run of
consecutive directions are equal; the stored cost (`f_score`) plays no
part (the session handle is stateless and outside the embedded data), so
the same grid cell reached with different runs is a distinct state while
differing costs do not distinguish states. -/
theorem node_eq_iff :
    (∀ a b : SearchNode, nodeEqb a b = true ↔
      (a.pos = b.pos ∧ a.previous_same_dirs = b.previous_same_dirs)) ∧
    (∀ (p : GridPos) (r : List Dir) (f1 f2 : Nat),
      nodeEqb ⟨p, r, f1⟩ ⟨p, r, f2⟩ = true) ∧
    (∀ a b : SearchNode, a.pos = b.pos →
      a.previous_same_dirs ≠ b.previous_same_dirs → nodeEqb a b = false) := by
  refine ⟨?_, ?_, ?_⟩
  · intro a b
    simp [nodeEqb]
  · intro p r f1 f2
    simp [nodeEqb]
  · intro a b hpos hrun
    simp [nodeEqb, hrun]

/-- Witness for C9 at concrete nodes: differing costs do not distinguish
states, differing runs at the same cell do. -/
theorem node_eq_iff_witness :
    nodeEqb ⟨⟨0, 0⟩, [.east], 5⟩ ⟨⟨0, 0⟩, [.east], 7⟩ = true ∧
    nodeEqb ⟨⟨0, 0⟩, [.east], 5⟩ ⟨⟨0, 0⟩, [.north], 5⟩ = false :=
  ⟨node_eq_iff.2.1 ⟨0, 0⟩ [.east] 5 7,
   node_eq_iff.2.2 ⟨⟨0, 0⟩, [.east], 5⟩ ⟨⟨0, 0⟩, [.north], 5⟩ rfl (by simp)⟩

/-- C10 (counterexample to the claim as stated): with `maxRun = 0` the
first step of the search is rejected even from the start state, although
the target cell is one of the four in-bounds neighbours; so the first
step is not allowed for every choice of the bounds. -/
theorem first_step_blocked_when_maxRun_zero :
    (⟨1, 0⟩ : GridPos) ∈ (⟨0, 0⟩ : GridPos).neighbours ∧
    GridPos.inGrid ⟨1, 0⟩ ⟨2, 1, [1, 1]⟩ = true ∧
    expandChild 0 0 (startNode ⟨0, 0⟩) ⟨1, 0⟩ = none := by
  refine ⟨by simp [GridPos.neighbours], by decide, ?_⟩
  decide

/-- C10 (amended): provided `maxRun ≥ 1`, a move from the start state —
whose run is empty and has no last direction — into any in-bounds
neighbouring cell is allowed, for every `minRun` (including
`minRun > maxRun`): the no-reverse rule and the minimum-run turn
restriction apply only when a previous direction exists. -/
theorem first_step_unconstrained (city : Grid) (minR maxR : Nat)
    (hmax : 1 ≤ maxR) (p np : GridPos) (d : Dir) (hnp : np = p + d.offset)
    (hin : np.inGrid city = true) :
    expandChild minR maxR (startNode p) np = some ⟨np, [d], 0⟩ := by
  subst hnp
  unfold expandChild
  simp only [startNode]
  rw [add_offset_sub, Dir.tryFrom_offset]
  simp only [List.getLast?_nil, reduceCtorEq, if_false,
    Option.isSome_none, Bool.false_eq_true, false_and, List.length_singleton]
  rw [if_neg (by omega)]

/-- Witness for C10's amended theorem: with `minRun = 7 > maxRun = 1` the
first move east from the start corner of a 2x1 grid is still allowed. -/
theorem first_step_unconstrained_witness :
    expandChild 7 1 (startNode ⟨0, 0⟩) ⟨1, 0⟩ = some ⟨⟨1, 0⟩, [.east], 0⟩ :=
  first_step_unconstrained ⟨2, 1, [1, 1]⟩ 7 1 (by decide) ⟨0, 0⟩ ⟨1, 0⟩ .east
    (by decide) (by decide)

/-- C5: for a state with a last direction `d` and run length `r`, a move
in a direction differing from `d` is disallowed when `r < minRun`, and
when a move is allowed the new run length is 1 on a turn and `r + 1` when
continuing straight. -/
theorem min_run_turn_rule (minR maxR : Nat) (s : SearchNode) (d d2 : Dir)
    (hlast : s.previous_same_dirs.getLast? = some d) :
    (d2 ≠ d → s.previous_same_dirs.length < minR →
      expandChild minR maxR s (s.pos + d2.offset) = none) ∧
    (∀ c, expandChild minR maxR s (s.pos + d2.offset) = some c →
      c.previous_same_dirs.length =
        if d2 = d then s.previous_same_dirs.length + 1 else 1) := by
  constructor
  · intro hne hlen
    rw [expandChild_step]
    by_cases hop : d2 = d.opposite
    · rw [if_pos (by rw [hlast, hop, Dir.opposite_opposite])]
    · have hc1 : ¬(s.previous_same_dirs.getLast? = some d2.opposite) := by
        rw [hlast]
        intro hcon
        apply hop
        have h2 := Option.some.inj hcon
        rw [h2, Dir.opposite_opposite]
      have hc2 : s.previous_same_dirs.getLast?.isSome = true ∧
          s.previous_same_dirs.getLast? ≠ some d2 ∧
          s.previous_same_dirs.length < minR := by
        refine ⟨by rw [hlast]; rfl, ?_, hlen⟩
        rw [hlast]
        exact fun hcon => hne (Option.some.inj hcon).symm
      rw [if_neg hc1, if_pos hc2]
  · intro c hc
    obtain ⟨d3, hd3, hcpos, hcf, hnop, hmin, hdirs, hlen⟩ := expandChild_inv hc
    obtain rfl : d2 = d3 := (Dir.offset_inj (GridPos.add_left_cancel hd3.symm)).symm
    rw [hlast] at hdirs
    by_cases heq : d2 = d
    · rw [if_pos heq]
      rw [if_pos (by rw [heq])] at hdirs
      simp [hdirs]
    · rw [if_neg heq]
      rw [if_neg (by simpa using fun h => heq h.symm)] at hdirs
      simp [hdirs]

/-- Witness for C5: from a state one step east with run [east] and
`minRun = 2`, turning south is rejected, while continuing east yields run
length 2. -/
theorem min_run_turn_rule_witness :
    expandChild 2 3 ⟨⟨1, 0⟩, [.east], 0⟩ ((⟨1, 0⟩ : GridPos) + Dir.offset .south) = none ∧
    (⟨(⟨1, 0⟩ : GridPos) + Dir.offset .east, [.east, .east], 0⟩ : SearchNode).previous_same_dirs.length =
      if Dir.east = Dir.east then ([Dir.east] : List Dir).length + 1 else 1 :=
  ⟨(min_run_turn_rule 2 3 ⟨⟨1, 0⟩, [.east], 0⟩ .east .south rfl).1 (by decide)
      (by decide),
   (min_run_turn_rule 2 3 ⟨⟨1, 0⟩, [.east], 0⟩ .east .east rfl).2
      ⟨(⟨1, 0⟩ : GridPos) + Dir.offset .east, [.east, .east], 0⟩ (by decide)⟩

/-- C3: a state popped from the frontier is accepted as the answer, with
its backtracked path returned, exactly when its position equals the goal
and its run length strictly exceeds `minRun`; otherwise (in particular
for a goal-position state whose run length is `minRun` or less) the
search continues with the expansion of the popped state. -/
theorem goal_accept_iff (city : Grid) (minR maxR : Nat) (target : GridPos)
    (fuel : Nat) (st : SearchState) (s : SearchNode) (rest : List SearchNode)
    (hpop : popMin st.frontier = some (s, rest)) :
    (s.pos = target ∧ minR < s.previous_same_dirs.length →
      findPathLoop city minR maxR target (fuel + 1) st =
        .found (backtrackFrom st.parents st.g_scores.length s)) ∧
    (¬(s.pos = target ∧ minR < s.previous_same_dirs.length) →
      findPathLoop city minR maxR target (fuel + 1) st =
        findPathLoop city minR maxR target fuel
          (stepState city minR maxR s rest st)) := by
  constructor
  · intro h
    simp only [findPathLoop, hpop]
    rw [if_pos h]
  · intro h
    simp only [findPathLoop, hpop]
    rw [if_neg h]

/-- Witness for C3: popping a frontier state sitting on the goal with run
length 1 > minRun = 0 immediately returns its backtracked path. -/
theorem goal_accept_iff_witness :
    findPathLoop ⟨1, 1, [5]⟩ 0 3 ⟨0, 0⟩ 1
        ⟨[⟨⟨0, 0⟩, [.east], 0⟩], [], []⟩ =
      .found (backtrackFrom [] ([] : List (NK × Nat)).length ⟨⟨0, 0⟩, [.east], 0⟩) :=
  (goal_accept_iff ⟨1, 1, [5]⟩ 0 3 ⟨0, 0⟩ 0 ⟨[⟨⟨0, 0⟩, [.east], 0⟩], [], []⟩
    ⟨⟨0, 0⟩, [.east], 0⟩ [] (by decide)).1 (by decide)

/-! Association map and frontier lemmas. -/
theorem alookup_ainsert_self {α : Type} (m : List (NK × α)) (k : NK) (v : α) :
    alookup (ainsert m k v) k = some v := by
  simp [ainsert, alookup]

theorem alookup_filter_ne {α : Type} (m : List (NK × α)) (k k2 : NK)
    (h : k2 ≠ k) :
    alookup (m.filter (fun e => decide (e.1 ≠ k))) k2 = alookup m k2 := by
  induction m with
  | nil => rfl
  | cons e t ih =>
    by_cases hk : e.1 = k
    · have : (decide (e.1 ≠ k)) = false := by simp [hk]
      rw [List.filter_cons, this]
      simp only [Bool.false_eq_true, if_false]
      rw [ih]
      obtain ⟨e1, e2⟩ := e
      simp only [alookup]
      rw [if_neg (by simp at hk; rw [hk]; exact fun hcon => h hcon.symm)]
    · have : (decide (e.1 ≠ k)) = true := by simp [hk]
      rw [List.filter_cons, this]
      simp only [if_true]
      obtain ⟨e1, e2⟩ := e
      simp only [alookup]
      by_cases he : e1 = k2
      · rw [if_pos he, if_pos he]
      · rw [if_neg he, if_neg he]
        exact ih

theorem alookup_ainsert_ne {α : Type} (m : List (NK × α)) (k k2 : NK) (v : α)
    (h : k2 ≠ k) :
    alookup (ainsert m k v) k2 = alookup m k2 := by
  simp only [ainsert, alookup]
  rw [if_neg (fun hcon => h hcon.symm)]
  exact alookup_filter_ne m k k2 h

theorem alookup_mem {α : Type} {m : List (NK × α)} {k : NK} {v : α}
    (h : alookup m k = some v) : (k, v) ∈ m := by
  induction m with
  | nil => exact absurd h (by simp [alookup])
  | cons e t ih =>
    obtain ⟨e1, e2⟩ := e
    simp only [alookup] at h
    by_cases he : e1 = k
    · rw [if_pos he] at h
      subst he
      obtain rfl := Option.some.inj h
      exact List.mem_cons_self _ _
    · rw [if_neg he] at h
      exact List.mem_cons_of_mem _ (ih h)

theorem mem_of_alookup_isSome {α : Type} {m : List (NK × α)} {k : NK}
    (h : alookup m k = none) : ∀ v, (k, v) ∉ m := by
  intro v hv
  induction m with
  | nil => exact absurd hv (by simp)
  | cons e t ih =>
    obtain ⟨e1, e2⟩ := e
    simp only [alookup] at h
    rcases List.mem_cons.mp hv with heq | ht
    · obtain ⟨rfl, rfl⟩ := Prod.mk.injEq .. ▸ heq
      injection heq with h1 h2
      rw [if_pos rfl] at h
      exact Option.noConfusion h
    · by_cases he : e1 = k
      · rw [if_pos he] at h
        exact Option.noConfusion h
      · rw [if_neg he] at h
        exact ih h ht

theorem mem_ainsert {α : Type} {m : List (NK × α)} {k : NK} {v : α}
    {e : NK × α} (h : e ∈ ainsert m k v) : e = (k, v) ∨ e ∈ m := by
  simp only [ainsert, List.mem_cons, List.mem_filter] at h
  rcases h with h | h
  · exact Or.inl h
  · exact Or.inr h.1

theorem ainsert_keys_nodup {α : Type} {m : List (NK × α)} (k : NK) (v : α)
    (h : (m.map Prod.fst).Nodup) :
    ((ainsert m k v).map Prod.fst).Nodup := by
  simp only [ainsert, List.map_cons, List.nodup_cons]
  constructor
  · intro hmem
    simp only [List.mem_map, List.mem_filter] at hmem
    obtain ⟨e, ⟨_, hne⟩, hk⟩ := hmem
    simp [hk] at hne
  · exact List.Nodup.sublist ((List.filter_sublist m).map Prod.fst) h

theorem popMin_eq_none_iff (l : List SearchNode) :
    popMin l = none ↔ l = [] := by
  cases l with
  | nil => simp [popMin]
  | cons n rest =>
    simp only [popMin]
    constructor
    · intro h
      rcases hr : popMin rest with _ | p
      · rw [hr] at h; exact Option.noConfusion h
      · rw [hr] at h
        obtain ⟨a, b⟩ := p
        simp only at h
        split_ifs at h <;> exact Option.noConfusion h
    · intro h
      exact List.noConfusion h

theorem popMin_perm {l : List SearchNode} {s : SearchNode}
    {rest : List SearchNode} (h : popMin l = some (s, rest)) :
    l.Perm (s :: rest) := by
  induction l generalizing s rest with
  | nil => exact absurd h (by simp [popMin])
  | cons n t ih =>
    simp only [popMin] at h
    rcases hr : popMin t with _ | p
    · rw [hr] at h
      obtain ⟨rfl, rfl⟩ := Prod.mk.injEq .. ▸ Option.some.inj h
      rw [(popMin_eq_none_iff t).mp hr]
    · rw [hr] at h
      obtain ⟨a, b⟩ := p
      simp only at h
      split_ifs at h with hle
      · obtain ⟨rfl, rfl⟩ := Prod.mk.injEq .. ▸ Option.some.inj h
        exact List.Perm.refl _
      · obtain ⟨rfl, rfl⟩ := Prod.mk.injEq .. ▸ Option.some.inj h
        exact (List.Perm.cons n (ih hr)).trans (List.Perm.swap a n b)

theorem popMin_min {l : List SearchNode} {s : SearchNode}
    {rest : List SearchNode} (h : popMin l = some (s, rest)) :
    ∀ n ∈ l, s.f_score ≤ n.f_score := by
  induction l generalizing s rest with
  | nil => exact absurd h (by simp [popMin])
  | cons n t ih =>
    simp only [popMin] at h
    rcases hr : popMin t with _ | p
    · rw [hr] at h
      obtain ⟨rfl, rfl⟩ := Prod.mk.injEq .. ▸ Option.some.inj h
      rw [(popMin_eq_none_iff t).mp hr]
      intro x hx
      rcases List.mem_cons.mp hx with rfl | hx2
      · exact Nat.le_refl _
      · exact absurd hx2 (by simp)
    · rw [hr] at h
      obtain ⟨a, b⟩ := p
      simp only at h
      split_ifs at h with hle
      · obtain ⟨rfl, rfl⟩ := Prod.mk.injEq .. ▸ Option.some.inj h
        intro x hx
        rcases List.mem_cons.mp hx with rfl | hx2
        · exact Nat.le_refl _
        · exact Nat.le_trans hle (ih hr x hx2)
      · obtain ⟨rfl, rfl⟩ := Prod.mk.injEq .. ▸ Option.some.inj h
        intro x hx
        rcases List.mem_cons.mp hx with rfl | hx2
        · omega
        · exact ih hr x hx2

theorem nodeEqb_iff_key (a b : SearchNode) :
    nodeEqb a b = true ↔ a.key = b.key := by
  simp [nodeEqb, SearchNode.key, Prod.ext_iff]

/-- Fold induction over a list with access to the processed prefix. -/
theorem foldl_ind {α β : Type} (f : α → β → α) (M : α → List β → Prop)
    (l0 : List β) :
    ∀ (l done : List β) (a : α), done ++ l = l0 → M a done →
      (∀ acc d x t, d ++ x :: t = l0 → M acc d → M (f acc x) (d ++ [x])) →
      M (l.foldl f a) l0 := by
  intro l
  induction l with
  | nil =>
    intro done a hsplit hM _
    rw [List.append_nil] at hsplit
    rw [← hsplit]
    exact hM
  | cons x t ih =>
    intro done a hsplit hM hstep
    simp only [List.foldl_cons]
    refine ih (done ++ [x]) (f a x) (by simp [hsplit]) ?_ hstep
    exact hstep a done x t hsplit hM

/-! Corollaries of the expansion rule and grid access. -/
theorem expandChild_key_only (minR maxR : Nat) (s : SearchNode) (np : GridPos) :
    expandChild minR maxR s np = expandChild minR maxR (nodeOf s.key) np := rfl

theorem expandChild_props {minR maxR : Nat} {s c : SearchNode} {np : GridPos}
    (hc : expandChild minR maxR s np = some c) :
    c.pos = np ∧ c.f_score = 0 ∧ c.previous_same_dirs ≠ [] ∧
    (∃ d : Dir, np = s.pos + d.offset ∧
      c.previous_same_dirs.getLast? = some d) := by
  obtain ⟨d, hnp, hcpos, hcf, hnop, hmin, hdirs, hlen⟩ := expandChild_inv hc
  refine ⟨hcpos, hcf, ?_, d, hnp, ?_⟩
  · rw [hdirs]
    split_ifs <;> simp
  · rw [hdirs]
    split_ifs
    · exact List.getLast?_concat _
    · rfl

theorem expandChild_eq_nodeOf {minR maxR : Nat} {s c : SearchNode}
    {np : GridPos} (hc : expandChild minR maxR s np = some c) :
    c = nodeOf c.key := by
  obtain ⟨-, hf, -, -⟩ := expandChild_props hc
  obtain ⟨cp, cd, cf⟩ := c
  simp only [SearchNode.mk.injEq] at hf
  simp [nodeOf, SearchNode.key, hf]

theorem expandChild_key_ne_start {minR maxR : Nat} {s c : SearchNode}
    {np p : GridPos} (hc : expandChild minR maxR s np = some c) :
    c.key ≠ (startNode p).key := by
  obtain ⟨-, -, hne, -⟩ := expandChild_props hc
  intro hcon
  apply hne
  have h2 := congrArg Prod.snd hcon
  simpa [SearchNode.key, startNode] using h2

theorem expandChild_len_le {minR maxR : Nat} {s c : SearchNode} {np : GridPos}
    (hs : s.previous_same_dirs.length ≤ maxR)
    (hc : expandChild minR maxR s np = some c) :
    c.previous_same_dirs.length ≤ maxR := by
  obtain ⟨d, hnp, hcpos, hcf, hnop, hmin, hdirs, hlen⟩ := expandChild_inv hc
  rw [hdirs] at hlen ⊢
  split_ifs at hlen ⊢ with hsame
  · simp only [List.length_append, List.length_singleton] at hlen ⊢
    omega
  · simp only [List.length_singleton] at hlen ⊢
    omega

theorem mem_expandChildren_iff {city : Grid} {minR maxR : Nat}
    {s c : SearchNode} :
    c ∈ expandChildren city minR maxR s ↔
      ∃ np, np ∈ s.pos.neighbours ∧ np.inGrid city = true ∧
        expandChild minR maxR s np = some c := by
  simp only [expandChildren, List.mem_filterMap, List.mem_filter]
  constructor
  · rintro ⟨np, ⟨hmem, hin⟩, hc⟩
    exact ⟨np, hmem, hin, hc⟩
  · rintro ⟨np, hmem, hin, hc⟩
    exact ⟨np, ⟨hmem, hin⟩, hc⟩

theorem inGrid_get_isSome {city : Grid} (hwf : GridWF city) {p : GridPos}
    (hin : p.inGrid city = true) : ∃ v, city.get p = some v := by
  simp only [GridPos.inGrid, decide_eq_true_eq] at hin
  unfold Grid.get
  rw [if_pos hin]
  obtain ⟨h1, h2, h3, h4⟩ := hin
  rcases hv : city.data.get? (p.y.toNat * city.width + p.x.toNat) with _ | v
  · rw [List.get?_eq_none] at hv
    rw [GridWF] at hwf
    exfalso
    have hx : p.x.toNat < city.width := by omega
    have hy : p.y.toNat < city.height := by omega
    have : p.y.toNat * city.width + p.x.toNat < city.width * city.height := by
      have := Nat.succ_le_of_lt hy
      calc p.y.toNat * city.width + p.x.toNat
          < p.y.toNat * city.width + city.width := by omega
        _ = (p.y.toNat + 1) * city.width := by ring
        _ ≤ city.height * city.width := Nat.mul_le_mul_right _ (by omega)
        _ = city.width * city.height := Nat.mul_comm _ _
    omega
  · exact ⟨v, rfl⟩

theorem get_pos_of_key {city : Grid} {k : NK} {v : Nat} :
    city.get (nodeOf k).pos = city.get k.1 := rfl

/-- Case analysis of one relaxation under the facts available at every
relaxation of a reachable search state: the popped state's cost is
recorded, the entered cell has a cost, every frontier node's priority is
its recorded cost, and no recorded cost of the child's state exceeds the
tentative cost.  Then either the child's state was already recorded at
most as expensive and nothing changes, or the child's state is new: its
cost and predecessor are recorded and it is pushed. -/
theorem relax_analysis (city : Grid) (stm : SearchState) (s c : SearchNode)
    (sf ec : Nat)
    (hsg : alookup stm.g_scores s.key = some sf)
    (hget : city.get c.pos = some ec)
    (hfrg : ∀ n ∈ stm.frontier, alookup stm.g_scores n.key = some n.f_score)
    (hbound : ∀ eg, alookup stm.g_scores c.key = some eg → eg ≤ sf + ec) :
    (∃ eg, alookup stm.g_scores c.key = some eg ∧ eg ≤ sf + ec ∧
      relaxChild city s stm c = stm) ∨
    (alookup stm.g_scores c.key = none ∧
      relaxChild city s stm c =
        { parents := ainsert stm.parents c.key s
          g_scores := ainsert stm.g_scores c.key (sf + ec)
          frontier := stm.frontier ++ [{ c with f_score := sf + ec }] }) := by
  unfold relaxChild
  rw [hsg, hget]
  simp only
  rcases hcg : alookup stm.g_scores c.key with _ | eg
  · right
    refine ⟨rfl, ?_⟩
    have hany : stm.frontier.any (fun n => nodeEqb n c) = false := by
      rw [List.any_eq_false]
      intro n hn hcon
      have hkey := (nodeEqb_iff_key n c).mp hcon
      have := hfrg n hn
      rw [hkey, hcg] at this
      exact Option.noConfusion this
    rw [if_pos rfl]
    rw [hany]
    simp
  · left
    have hle := hbound eg hcg
    refine ⟨eg, rfl, hle, ?_⟩
    rw [if_neg ?_]
    simp only [decide_eq_true_eq]
    omega

/-- C7: during expansion, whenever a newly discovered path to a
neighbouring state is strictly cheaper than any previously recorded cost
for that state (or the state has no recorded cost), the relaxation
records the new cost and the predecessor and pushes the state onto the
priority frontier.  The hypotheses `hfr` and `hnostale` are facts of
every reachable relaxation: frontier priorities equal recorded costs, and
an in-frontier copy of the child's state can never be strictly costlier
than the tentative cost, so the frontier-duplicate guard of the code
never suppresses the insertion. -/
theorem relax_updates_and_pushes (city : Grid) (st : SearchState)
    (s child : SearchNode) (sg ec : Nat)
    (hsg : alookup st.g_scores s.key = some sg)
    (hec : city.get child.pos = some ec)
    (hfr : ∀ n ∈ st.frontier, alookup st.g_scores n.key = some n.f_score)
    (hnostale : ∀ n ∈ st.frontier, n.key = child.key → n.f_score ≤ sg + ec)
    (himp : ∀ eg, alookup st.g_scores child.key = some eg → sg + ec < eg) :
    alookup (relaxChild city s st child).g_scores child.key = some (sg + ec) ∧
    alookup (relaxChild city s st child).parents child.key = some s ∧
    (relaxChild city s st child).frontier =
      st.frontier ++ [{ child with f_score := sg + ec }] := by
  have hany : st.frontier.any (fun n => nodeEqb n child) = false := by
    rw [List.any_eq_false]
    intro n hn hcon
    have hkey := (nodeEqb_iff_key n child).mp hcon
    have hg := hfr n hn
    rw [hkey] at hg
    have hlt := himp n.f_score hg
    have hle := hnostale n hn hkey
    omega
  unfold relaxChild
  rw [hsg, hec]
  simp only
  have himpb : (match alookup st.g_scores child.key with
      | none => true
      | some existing_g => decide (sg + ec < existing_g)) = true := by
    rcases hcg : alookup st.g_scores child.key with _ | eg
    · rfl
    · simp only [decide_eq_true_eq]
      exact himp eg hcg
  rw [himpb]
  rw [if_pos rfl]
  rw [hany]
  simp only [Bool.false_eq_true, if_false]
  refine ⟨alookup_ainsert_self _ _ _, alookup_ainsert_self _ _ _, ?_⟩
  trivial

/-- Witness for C7: relaxing the unrecorded state one step east of the
start of a 2x1 grid records cost 0 + 3, records the popped start node as
its predecessor, and pushes it onto the frontier. -/
theorem relax_updates_and_pushes_witness :
    alookup (relaxChild ⟨2, 1, [1, 3]⟩ (startNode ⟨0, 0⟩) (initState ⟨0, 0⟩)
        ⟨⟨1, 0⟩, [.east], 0⟩).g_scores
      (⟨⟨1, 0⟩, [.east], 0⟩ : SearchNode).key = some (0 + 3) ∧
    alookup (relaxChild ⟨2, 1, [1, 3]⟩ (startNode ⟨0, 0⟩) (initState ⟨0, 0⟩)
        ⟨⟨1, 0⟩, [.east], 0⟩).parents
      (⟨⟨1, 0⟩, [.east], 0⟩ : SearchNode).key = some (startNode ⟨0, 0⟩) ∧
    (relaxChild ⟨2, 1, [1, 3]⟩ (startNode ⟨0, 0⟩) (initState ⟨0, 0⟩)
        ⟨⟨1, 0⟩, [.east], 0⟩).frontier =
      (initState ⟨0, 0⟩).frontier ++ [⟨⟨1, 0⟩, [.east], 0 + 3⟩] :=
  relax_updates_and_pushes ⟨2, 1, [1, 3]⟩ (initState ⟨0, 0⟩)
    (startNode ⟨0, 0⟩) ⟨⟨1, 0⟩, [.east], 0⟩ 0 3 (by decide) (by decide)
    (by decide) (by decide)
    (fun eg heg => by
      rw [show alookup (initState (⟨0, 0⟩ : GridPos)).g_scores
        (⟨⟨1, 0⟩, [.east], 0⟩ : SearchNode).key = none from by decide] at heg
      exact Option.noConfusion heg)

/-- Unfolding of one loop iteration when the frontier is nonempty. -/
theorem findPathLoop_succ_some (city : Grid) (minR maxR : Nat)
    (target : GridPos) (fuel : Nat) (st : SearchState) (s : SearchNode)
    (rest : List SearchNode) (hpop : popMin st.frontier = some (s, rest)) :
    findPathLoop city minR maxR target (fuel + 1) st =
      if s.pos = target ∧ minR < s.previous_same_dirs.length then
        .found (backtrackFrom st.parents st.g_scores.length s)
      else findPathLoop city minR maxR target fuel
        (stepState city minR maxR s rest st) := by
  simp only [findPathLoop, hpop]

/-- Unfolding of one loop iteration when the frontier is empty. -/
theorem findPathLoop_succ_none (city : Grid) (minR maxR : Nat)
    (target : GridPos) (fuel : Nat) (st : SearchState)
    (hpop : popMin st.frontier = none) :
    findPathLoop city minR maxR target (fuel + 1) st = .noPath := by
  simp only [findPathLoop, hpop]

/-- Either a relaxation leaves the session state unchanged, or it records
some tentative cost and predecessor for the child's state and pushes the
child unless an equal state is already on the frontier. -/
theorem relaxChild_form (city : Grid) (s : SearchNode) (st : SearchState)
    (c : SearchNode) :
    relaxChild city s st c = st ∨
    ∃ t, relaxChild city s st c =
      { parents := ainsert st.parents c.key s
        g_scores := ainsert st.g_scores c.key t
        frontier :=
          if st.frontier.any (fun n => nodeEqb n c) then st.frontier
          else st.frontier ++ [{ c with f_score := t }] } := by
  unfold relaxChild
  rcases hsg : alookup st.g_scores s.key with _ | sg
  · left
    rcases hget : city.get c.pos with _ | ec <;> rfl
  rcases hget : city.get c.pos with _ | ec
  · left
    rfl
  simp only
  rcases hcg : alookup st.g_scores c.key with _ | eg
  · right
    refine ⟨sg + ec, ?_⟩
    rw [if_pos rfl]
  · by_cases hlt : sg + ec < eg
    · right
      refine ⟨sg + ec, ?_⟩
      rw [if_pos (by simp only [decide_eq_true_eq]; exact hlt)]
    · left
      rw [if_neg (by simp only [decide_eq_true_eq]; omega)]

/-- Simple preservation of a predicate along the relaxation fold. -/
theorem foldl_pres {α β : Type} {f : α → β → α} {P : α → Prop} :
    ∀ (l : List β) (a : α), P a → (∀ b x, x ∈ l → P b → P (f b x)) →
      P (l.foldl f a) := by
  intro l
  induction l with
  | nil => intro a h _; exact h
  | cons x t ih =>
    intro a h hstep
    exact ih (f a x) (hstep a x (List.mem_cons_self _ _) h)
      (fun b y hy => hstep b y (List.mem_cons_of_mem _ hy))

theorem reachable_nodesBounded {city : Grid} {minR maxR : Nat}
    {start target : GridPos} {st : SearchState}
    (hreach : Reachable city minR maxR start target st) :
    nodesBounded maxR st := by
  induction hreach with
    | init =>
      refine ⟨?_, ?_, ?_⟩
      · intro n hn
        simp only [initState, List.mem_singleton] at hn
        subst hn
        exact Nat.zero_le _
      · intro e he
        simp only [initState, List.mem_singleton] at he
        subst he
        exact Nat.zero_le _
      · intro e he
        exact absurd he (by simp [initState])
    | step hr hpop hnacc ih =>
      rename_i st s rest
      obtain ⟨hbf, hbg, hbp⟩ := ih
      have hs : s ∈ st.frontier := (popMin_perm hpop).mem_iff.mpr (List.mem_cons_self _ _)
      have hsb := hbf s hs
      have hrest : ∀ n ∈ rest, n.previous_same_dirs.length ≤ maxR := by
        intro n hn
        exact hbf n ((popMin_perm hpop).mem_iff.mpr (List.mem_cons_of_mem _ hn))
      unfold stepState
      refine foldl_pres _ _ ⟨hrest, hbg, hbp⟩ ?_
      intro b c hc hb
      obtain ⟨hbf2, hbg2, hbp2⟩ := hb
      have hcb : c.previous_same_dirs.length ≤ maxR := by
        obtain ⟨np, -, -, hcn⟩ := mem_expandChildren_iff.mp hc
        exact expandChild_len_le hsb hcn
      rcases relaxChild_form city s b c with hform | ⟨t, hform⟩
      · rw [hform]
        exact ⟨hbf2, hbg2, hbp2⟩
      · rw [hform]
        refine ⟨?_, ?_, ?_⟩
        · intro n hn
          simp only at hn
          split_ifs at hn with hany
          · exact hbf2 n hn
          · rcases List.mem_append.mp hn with hn2 | hn2
            · exact hbf2 n hn2
            · obtain rfl := List.mem_singleton.mp hn2
              exact hcb
        · intro e he
          simp only at he
          rcases mem_ainsert he with rfl | he2
          · exact hcb
          · exact hbg2 e he2
        · intro e he
          simp only at he
          rcases mem_ainsert he with rfl | he2
          · exact ⟨hcb, hsb⟩
          · exact hbp2 e he2

/-- C6: continuing straight is rejected exactly at run length `maxRun`
(the extended run would have length `maxRun + 1`), and consequently every
state a reachable search session ever holds — on the frontier, as a key
or value of the cost map, or as a key or value of the predecessor map —
has run length at most `maxRun`. -/
theorem max_run_enforced :
    (∀ (minR maxR : Nat) (s : SearchNode) (d : Dir),
      s.previous_same_dirs.getLast? = some d →
      s.previous_same_dirs.length = maxR →
      expandChild minR maxR s (s.pos + d.offset) = none) ∧
    (∀ (city : Grid) (minR maxR : Nat) (start target : GridPos)
      (st : SearchState), Reachable city minR maxR start target st →
      nodesBounded maxR st) := by
  constructor
  · intro minR maxR s d hlast hlen
    rw [expandChild_step]
    rw [if_neg (by rw [hlast]; intro hcon; exact Dir.ne_opposite d (Option.some.inj hcon))]
    rw [if_neg (by rw [hlast]; simp)]
    rw [if_pos (by rw [if_pos hlast]; simp [hlen])]
  · intro city minR maxR start target st hreach
    exact reachable_nodesBounded hreach

/-- Witness for C6: a run of two east steps with `maxRun = 2` cannot be
extended east, and the initial session state of any search is bounded. -/
theorem max_run_enforced_witness :
    expandChild 0 2 ⟨⟨2, 0⟩, [.east, .east], 0⟩
      ((⟨2, 0⟩ : GridPos) + Dir.offset .east) = none ∧
    nodesBounded 2 (initState ⟨0, 0⟩) :=
  ⟨max_run_enforced.1 0 2 ⟨⟨2, 0⟩, [.east, .east], 0⟩ .east rfl rfl,
   max_run_enforced.2 ⟨1, 1, [1]⟩ 0 2 ⟨0, 0⟩ ⟨0, 0⟩ _ Reachable.init⟩

theorem reachable_parentsOK {city : Grid} {minR maxR : Nat}
    {start target : GridPos} {st : SearchState}
    (hreach : Reachable city minR maxR start target st) :
    parentsOK st.parents := by
  induction hreach with
  | init =>
    intro e he
    exact absurd he (by simp [initState])
  | step hr hpop hnacc ih =>
    rename_i st s rest
    unfold stepState
    have base : parentsOK ({ st with frontier := rest } : SearchState).parents := ih
    refine foldl_pres (P := fun (b : SearchState) => parentsOK b.parents) _ _ base ?_
    intro b c hc hb
    rcases relaxChild_form city s b c with hform | ⟨t, hform⟩
    · rw [hform]; exact hb
    · rw [hform]
      intro e he
      simp only at he
      rcases mem_ainsert he with rfl | he2
      · obtain ⟨np, -, -, hcn⟩ := mem_expandChildren_iff.mp hc
        obtain ⟨d, hnp, hcpos, hcf, hnop, hmin, hdirs, hlen⟩ := expandChild_inv hcn
        obtain ⟨-, -, -, d2, hnp2, hlast2⟩ := expandChild_props hcn
        obtain rfl : d = d2 := by
          have h12 := hnp.symm.trans hnp2
          exact Dir.offset_inj (GridPos.add_left_cancel h12)
        refine ⟨d, ?_, ?_, ?_⟩
        · show c.key.1 = s.pos + d.offset
          show c.pos = s.pos + d.offset
          rw [hcpos, hnp]
        · exact hlast2
        · intro pd hpd hcon
          apply hnop
          rw [hpd]
          have : pd = d.opposite := by
            rw [hcon, Dir.opposite_opposite]
          rw [this]
      · exact hb e he2

theorem pos_add_offset_ne (p : GridPos) (d : Dir) : p + d.offset ≠ p := by
  cases p
  cases d <;>
    simp only [Dir.offset, GridPos.add_def, Ne, GridPos.mk.injEq, not_and] <;>
    omega

theorem singleton_list_good (a : GridPos) : StepApart [a] ∧ NoRevTriple [a] := by
  constructor <;> intro i x y hx hy <;> rcases i with _ | j <;>
    simp_all [List.get?]

theorem offsets_no_cancel {d1 d2 : Dir} (h : d1 ≠ d2.opposite) (p : GridPos) :
    p + d2.offset + d1.offset ≠ p := by
  cases p
  cases d1 <;> cases d2 <;>
    simp_all [Dir.opposite, Dir.offset, GridPos.add_def, GridPos.mk.injEq] <;>
    omega

theorem backtrack_head (parents : List (NK × SearchNode)) (fuel : Nat)
    (n : SearchNode) :
    (backtrackFrom parents fuel n).get? 0 = some n.pos := by
  rcases hl : alookup parents n.key with _ | pn <;> cases fuel <;>
    simp [backtrackFrom, hl]

theorem backtrack_good (parents : List (NK × SearchNode))
    (hok : parentsOK parents) :
    ∀ (fuel : Nat) (n : SearchNode),
      StepApart (backtrackFrom parents fuel n) ∧
      NoRevTriple (backtrackFrom parents fuel n) := by
  intro fuel
  induction fuel with
  | zero =>
    intro n
    have h0 : backtrackFrom parents 0 n = [n.pos] := by
      rcases hl : alookup parents n.key with _ | pn <;> simp [backtrackFrom, hl]
    rw [h0]
    exact singleton_list_good _
  | succ f ih =>
    intro n
    rcases hl : alookup parents n.key with _ | pn
    · have h0 : backtrackFrom parents (f + 1) n = [n.pos] := by
        simp [backtrackFrom, hl]
      rw [h0]
      exact singleton_list_good _
    · have hlist : backtrackFrom parents (f + 1) n =
          n.pos :: backtrackFrom parents f pn := by
        simp [backtrackFrom, hl]
      obtain ⟨d1, hpos1, hlast1, hnorev1⟩ := hok _ (alookup_mem hl)
      constructor
      · intro i x y hx hy
        rw [hlist] at hx hy
        rcases i with _ | j
        · rw [List.get?_cons_zero] at hx
          obtain rfl := Option.some.inj hx
          rw [List.get?_cons_succ, backtrack_head] at hy
          obtain rfl := Option.some.inj hy
          rw [show n.pos = pn.pos + d1.offset from hpos1]
          exact pos_add_offset_ne _ _
        · rw [List.get?_cons_succ] at hx hy
          exact (ih pn).1 j x y hx hy
      · intro i x y hx hy
        rw [hlist] at hx hy
        rcases i with _ | j
        · rw [List.get?_cons_zero] at hx
          obtain rfl := Option.some.inj hx
          rw [List.get?_cons_succ] at hy
          rcases hl2 : alookup parents pn.key with _ | pn2
          · exfalso
            rcases f with _ | f2 <;>
              simp [backtrackFrom, hl2] at hy
          · rcases f with _ | f2
            · exfalso
              simp [backtrackFrom, hl2] at hy
            · have hlist2 : backtrackFrom parents (f2 + 1) pn =
                  pn.pos :: backtrackFrom parents f2 pn2 := by
                simp [backtrackFrom, hl2]
              rw [hlist2, List.get?_cons_succ, backtrack_head] at hy
              obtain rfl := Option.some.inj hy
              obtain ⟨d2, hpos2, hlast2, -⟩ := hok _ (alookup_mem hl2)
              have hne := hnorev1 d2 hlast2
              rw [show n.pos = pn.pos + d1.offset from hpos1,
                show pn.pos = pn2.pos + d2.offset from hpos2]
              exact offsets_no_cancel hne _
        · rw [List.get?_cons_succ] at hx hy
          exact (ih pn).2 j x y hx hy

/-- C4: no transition ever moves in the direction exactly opposite to the
last direction taken, and consequently every path returned by the search
from a reachable session state contains no two consecutive identical
positions and no immediate reversal (no position equal to the position
two steps before it). -/
theorem no_reverse_and_no_backtrack :
    (∀ (minR maxR : Nat) (s : SearchNode) (d : Dir),
      s.previous_same_dirs.getLast? = some d →
      expandChild minR maxR s (s.pos + d.opposite.offset) = none) ∧
    (∀ (city : Grid) (minR maxR : Nat) (start target : GridPos)
      (fuel : Nat) (st : SearchState) (p : List GridPos),
      Reachable city minR maxR start target st →
      findPathLoop city minR maxR target fuel st = .found p →
      StepApart p ∧ NoRevTriple p) := by
  constructor
  · intro minR maxR s d hlast
    rw [expandChild_step]
    rw [if_pos (by rw [Dir.opposite_opposite]; exact hlast)]
  · intro city minR maxR start target fuel
    induction fuel with
    | zero =>
      intro st p hreach hfound
      exact absurd hfound (by simp [findPathLoop])
    | succ f ih =>
      intro st p hreach hfound
      rcases hpop : popMin st.frontier with _ | sr
      · rw [findPathLoop_succ_none city minR maxR target f st hpop] at hfound
        exact SearchResult.noConfusion hfound
      · obtain ⟨s, rest⟩ := sr
        rw [findPathLoop_succ_some city minR maxR target f st s rest hpop] at hfound
        split_ifs at hfound with hacc
        · have hp : backtrackFrom st.parents st.g_scores.length s = p :=
            SearchResult.found.inj hfound
          rw [← hp]
          exact backtrack_good st.parents (reachable_parentsOK hreach) _ s
        · exact ih (stepState city minR maxR s rest st) p
            (Reachable.step hreach hpop hacc) hfound

/-- Witness for C4: a state that just moved east cannot move west, and a
concrete found path of a 2x2 search has no equal adjacent positions and
no backtrack. -/
theorem no_reverse_and_no_backtrack_witness :
    expandChild 0 3 ⟨⟨1, 0⟩, [.east], 0⟩
      ((⟨1, 0⟩ : GridPos) + (Dir.east.opposite).offset) = none ∧
    (StepApart [⟨1, 1⟩, ⟨1, 0⟩, ⟨0, 0⟩] ∧
      NoRevTriple [⟨1, 1⟩, ⟨1, 0⟩, ⟨0, 0⟩]) :=
  ⟨no_reverse_and_no_backtrack.1 0 3 ⟨⟨1, 0⟩, [.east], 0⟩ .east rfl,
   no_reverse_and_no_backtrack.2 ⟨2, 2, [1, 2, 3, 4]⟩ 0 3 ⟨0, 0⟩ ⟨1, 1⟩ 20
     (initState ⟨0, 0⟩) [⟨1, 1⟩, ⟨1, 0⟩, ⟨0, 0⟩] Reachable.init (by decide)⟩

theorem startNode_key (p : GridPos) : (startNode p).key = startKey p := rfl

theorem inv_init (city : Grid) (minR maxR : Nat) (start target : GridPos) :
    Inv city minR maxR start target (initState start) [] 0 := by
  refine ⟨?_, ?_, ?_, ?_, ?_, ?_, ?_, ?_, ?_, ?_, ?_, ?_, ?_, ?_, ?_, ?_⟩
  · simp [initState]
  · simp [initState, alookup, startNode_key]
  · simp [initState, alookup]
  · intro n hn
    obtain rfl := List.mem_singleton.mp hn
    simp [initState, alookup, startNode]
  · intro n hn
    exact Nat.zero_le _
  · simp [initState]
  · intro n hn v hv
    exact absurd hv (by simp)
  · intro e he
    exact absurd he (by simp)
  · intro e he
    exact absurd he (by simp)
  · intro e he
    exact absurd he (by simp)
  · simp
  · intro e he
    obtain rfl := List.mem_singleton.mp he
    right
    exact ⟨startNode start, List.mem_singleton.mpr rfl, rfl⟩
  · intro e he
    obtain rfl := List.mem_singleton.mp he
    intro hne
    exact absurd (startNode_key start) hne
  · intro e he
    exact absurd he (by simp)
  · intro e he
    obtain rfl := List.mem_singleton.mp he
    intro hne
    exact absurd (startNode_key start) hne
  · intro i hi
    exact absurd hi (by simp)

theorem get_append_last {α : Type} (l : List α) (x : α)
    (h : l.length < (l ++ [x]).length) :
    (l ++ [x]).get ⟨l.length, h⟩ = x := by
  induction l with
  | nil => rfl
  | cons a t ih => exact ih (by simp)

theorem get_append_left {α : Type} (l l2 : List α) (i : Nat)
    (h : i < l.length) (h2 : i < (l ++ l2).length) :
    (l ++ l2).get ⟨i, h2⟩ = l.get ⟨i, h⟩ := by
  induction l generalizing i with
  | nil => exact absurd h (by simp)
  | cons a t ih =>
    cases i with
    | zero => rfl
    | succ j => exact ih j (by simpa using h) (by simpa using h2)

theorem take_append_le {α : Type} (l l2 : List α) (i : Nat)
    (h : i ≤ l.length) : (l ++ l2).take i = l.take i := by
  induction l generalizing i with
  | nil =>
    obtain rfl : i = 0 := by simpa using h
    rfl
  | cons a t ih =>
    cases i with
    | zero => rfl
    | succ j =>
      simp only [List.cons_append, List.take_succ_cons]
      rw [ih j (by simpa using h)]

theorem inv_pop_mid {city : Grid} {minR maxR : Nat} {start target : GridPos}
    {st : SearchState} {P : List (NK × Nat)} {m : Nat} {s : SearchNode}
    {rest : List SearchNode}
    (hinv : Inv city minR maxR start target st P m)
    (hpop : popMin st.frontier = some (s, rest))
    (hnacc : ¬(s.pos = target ∧ minR < s.previous_same_dirs.length)) :
    MidInv city minR maxR start target s P
      { st with frontier := rest } [] := by
  have hperm := popMin_perm hpop
  have hs : s ∈ st.frontier := hperm.mem_iff.mpr (List.mem_cons_self _ _)
  have hrestmem : ∀ n ∈ rest, n ∈ st.frontier := fun n hn =>
    hperm.mem_iff.mpr (List.mem_cons_of_mem _ hn)
  have hkeys : ((s.key :: rest.map SearchNode.key)).Nodup := by
    have := (hperm.map SearchNode.key).nodup_iff.mp hinv.frontNodup
    simpa using this
  have hkeyrest : (rest.map SearchNode.key).Nodup := (List.nodup_cons.mp hkeys).2
  have hskeyrest : s.key ∉ rest.map SearchNode.key := (List.nodup_cons.mp hkeys).1
  have hsg : alookup st.g_scores s.key = some s.f_score := hinv.frontG s hs
  have hmf : m ≤ s.f_score := hinv.frontGe s hs
  have hsnp : ∀ v, (s.key, v) ∉ P := hinv.frontNotPopped s hs
  have hmin := popMin_min hpop
  refine ⟨hinv.gNodup, hinv.startG, hinv.startPar, hsg, ?_, ?_, hkeyrest, ?_,
    ?_, ?_, ?_, ?_, ?_, ?_, ?_, ?_, ?_, ?_⟩
  · intro n hn
    exact hinv.frontG n (hrestmem n hn)
  · intro n hn
    exact hmin n (hrestmem n hn)
  · intro n hn v hv
    rcases List.mem_append.mp hv with hv2 | hv2
    · exact hinv.frontNotPopped n (hrestmem n hn) v hv2
    · obtain heq := List.mem_singleton.mp hv2
      have : n.key = s.key := congrArg Prod.fst heq
      exact hskeyrest (this ▸ List.mem_map_of_mem SearchNode.key hn)
  · intro e he
    rcases List.mem_append.mp he with he2 | he2
    · exact hinv.popG e he2
    · obtain rfl := List.mem_singleton.mp he2
      exact hsg
  · intro e he
    rcases List.mem_append.mp he with he2 | he2
    · exact hinv.popNotGoal e he2
    · obtain rfl := List.mem_singleton.mp he2
      exact hnacc
  · intro e he
    rcases List.mem_append.mp he with he2 | he2
    · exact Nat.le_trans (hinv.popLe e he2) hmf
    · obtain rfl := List.mem_singleton.mp he2
      exact Nat.le_refl _
  · rw [List.map_append]
    refine List.Nodup.append hinv.popNodup (by simp) ?_
    intro k hk hk2
    simp only [List.map_cons, List.map_nil, List.mem_singleton] at hk2
    subst hk2
    obtain ⟨e, he, hek⟩ := List.mem_map.mp hk
    apply hsnp e.2
    have : e = (s.key, e.2) := by
      obtain ⟨e1, e2⟩ := e
      simp only at hek
      rw [hek]
    rw [← this]
    exact he
  · intro e he
    rcases hinv.recCases e he with ⟨v, hv⟩ | ⟨n, hn, hnk⟩
    · exact Or.inl ⟨v, List.mem_append_left _ hv⟩
    · rcases List.mem_cons.mp (hperm.mem_iff.mp hn) with heq | hnr
      · refine Or.inl ⟨s.f_score, List.mem_append_right _ ?_⟩
        rw [← hnk, heq]
        exact List.mem_singleton.mpr rfl
      · exact Or.inr ⟨n, hnr, hnk⟩
  · intro e he hne
    obtain ⟨ec, hec, hb⟩ := hinv.recBound e he hne
    exact ⟨ec, hec, Nat.le_trans hb (by omega)⟩
  · intro e he np hnp c hc
    exact hinv.popClosed e he np hnp c hc
  · intro c hc
    exact absurd hc (by simp)
  · intro e he hne
    obtain ⟨pn, pv, ec, h1, h2, h3, h4, h5, h6⟩ := hinv.parentOf e he hne
    exact ⟨pn, pv, ec, h1, List.mem_append_left _ h2, h3, h4, h5, h6⟩
  · intro i hi hne
    by_cases hilt : i < P.length
    · rw [get_append_left P _ i hilt hi] at hne ⊢
      obtain ⟨pn, pv, h1, h2⟩ := hinv.parentEarlier i hilt hne
      refine ⟨pn, pv, h1, ?_⟩
      rw [take_append_le P _ i (by omega)]
      exact h2
    · have hieq : i = P.length := by
        simp only [List.length_append, List.length_singleton] at hi
        omega
      subst hieq
      rw [get_append_last P _ hi] at hne ⊢
      simp only at hne ⊢
      obtain ⟨pn, pv, ec, h1, h2, h3, h4, h5, h6⟩ :=
        hinv.parentOf (s.key, s.f_score) (alookup_mem hsg) hne
      refine ⟨pn, pv, h1, ?_⟩
      rw [take_append_le P _ P.length (by omega), List.take_length]
      exact h2

theorem mid_relax {city : Grid} {minR maxR : Nat} {start target : GridPos}
    {s : SearchNode} {P : List (NK × Nat)} {stm : SearchState}
    {done : List SearchNode} {c : SearchNode} (hwf : GridWF city)
    (hmid : MidInv city minR maxR start target s P stm done)
    (hc : c ∈ expandChildren city minR maxR s) :
    MidInv city minR maxR start target s P (relaxChild city s stm c)
      (done ++ [c]) := by
  obtain ⟨np, hnpn, hnpg, hcn⟩ := mem_expandChildren_iff.mp hc
  obtain ⟨hcpos, hcf, hcnn, -⟩ := expandChild_props hcn
  obtain rfl : np = c.pos := hcpos.symm
  obtain ⟨ec, hec⟩ := inGrid_get_isSome hwf hnpg
  have hcknstart : c.key ≠ startKey start := by
    have h2 := expandChild_key_ne_start (p := start) hcn
    rw [startNode_key] at h2
    exact h2
  have hbound : ∀ eg, alookup stm.g_scores c.key = some eg →
      eg ≤ s.f_score + ec := by
    intro eg heg
    obtain ⟨ec2, hec2, hb⟩ := hmid.recBound (c.key, eg) (alookup_mem heg)
      hcknstart
    have hee : ec2 = ec := Option.some.inj (hec2.symm.trans hec)
    omega
  rcases relax_analysis city stm s c s.f_score ec hmid.sG hec hmid.frontG
      hbound with ⟨eg, hcg, hegle, hform⟩ | ⟨hcgnone, hform⟩
  · rw [hform]
    refine ⟨hmid.gNodup, hmid.startG, hmid.startPar, hmid.sG, hmid.frontG,
      hmid.frontGe, hmid.frontNodup, hmid.frontNotPopped, hmid.popG,
      hmid.popNotGoal, hmid.popLe, hmid.popNodup, hmid.recCases,
      hmid.recBound, hmid.popClosedOld, ?_, hmid.parentOf,
      hmid.parentEarlier⟩
    intro c2 hc2
    rcases List.mem_append.mp hc2 with h2 | h2
    · exact hmid.closedDone c2 h2
    · obtain rfl := List.mem_singleton.mp h2
      exact ⟨eg, ec, hcg, hec, hegle⟩
  · have hskc : s.key ≠ c.key := by
      intro h
      have h2 := hmid.sG
      rw [h, hcgnone] at h2
      exact Option.noConfusion h2
    have hstartc : startKey start ≠ c.key := fun h => hcknstart h.symm
    have hfkc : ∀ n ∈ stm.frontier, n.key ≠ c.key := by
      intro n hn h
      have h2 := hmid.frontG n hn
      rw [h, hcgnone] at h2
      exact Option.noConfusion h2
    have hpkc : ∀ e ∈ P ++ [(s.key, s.f_score)], (e : NK × Nat).1 ≠ c.key := by
      intro e he h
      have h2 := hmid.popG e he
      rw [h, hcgnone] at h2
      exact Option.noConfusion h2
    have hcfkey : ({ c with f_score := s.f_score + ec } : SearchNode).key =
        c.key := rfl
    rw [hform]
    refine ⟨?_, ?_, ?_, ?_, ?_, ?_, ?_, ?_, ?_, ?_, ?_, ?_, ?_, ?_, ?_, ?_,
      ?_, ?_⟩
    · exact ainsert_keys_nodup _ _ hmid.gNodup
    · rw [alookup_ainsert_ne _ _ _ _ hstartc]
      exact hmid.startG
    · rw [alookup_ainsert_ne _ _ _ _ hstartc]
      exact hmid.startPar
    · rw [alookup_ainsert_ne _ _ _ _ hskc]
      exact hmid.sG
    · intro n hn
      rcases List.mem_append.mp hn with hn2 | hn2
      · rw [alookup_ainsert_ne _ _ _ _ (hfkc n hn2)]
        exact hmid.frontG n hn2
      · obtain rfl := List.mem_singleton.mp hn2
        rw [hcfkey]
        exact alookup_ainsert_self _ _ _
    · intro n hn
      rcases List.mem_append.mp hn with hn2 | hn2
      · exact hmid.frontGe n hn2
      · obtain rfl := List.mem_singleton.mp hn2
        exact Nat.le_add_right _ _
    · rw [List.map_append]
      refine List.Nodup.append hmid.frontNodup (by simp) ?_
      intro k hk hk2
      simp only [List.map_cons, List.map_nil, List.mem_singleton, hcfkey] at hk2
      subst hk2
      obtain ⟨n, hn, hnk⟩ := List.mem_map.mp hk
      exact hfkc n hn hnk
    · intro n hn v hv
      rcases List.mem_append.mp hn with hn2 | hn2
      · exact hmid.frontNotPopped n hn2 v hv
      · obtain rfl := List.mem_singleton.mp hn2
        rw [hcfkey] at hv
        have h2 := hmid.popG (c.key, v) hv
        rw [hcgnone] at h2
        exact Option.noConfusion h2
    · intro e he
      rw [alookup_ainsert_ne _ _ _ _ (hpkc e he)]
      exact hmid.popG e he
    · exact hmid.popNotGoal
    · exact hmid.popLe
    · exact hmid.popNodup
    · intro e he
      rcases mem_ainsert he with rfl | he2
      · right
        refine ⟨{ c with f_score := s.f_score + ec },
          List.mem_append_right _ (List.mem_singleton.mpr rfl), hcfkey⟩
      · rcases hmid.recCases e he2 with h2 | ⟨n, hn, hnk⟩
        · exact Or.inl h2
        · exact Or.inr ⟨n, List.mem_append_left _ hn, hnk⟩
    · intro e he hne
      rcases mem_ainsert he with rfl | he2
      · exact ⟨ec, hec, Nat.le_refl _⟩
      · exact hmid.recBound e he2 hne
    · intro e he np2 hnp2 c2 hc2
      obtain ⟨v2, ec2, hv2, hec2, hb2⟩ := hmid.popClosedOld e he np2 hnp2 c2 hc2
      have hc2c : c2.key ≠ c.key := by
        intro h
        rw [h, hcgnone] at hv2
        exact Option.noConfusion hv2
      rw [alookup_ainsert_ne _ _ _ _ hc2c]
      exact ⟨v2, ec2, hv2, hec2, hb2⟩
    · intro c2 hc2
      rcases List.mem_append.mp hc2 with h2 | h2
      · obtain ⟨v2, ec2, hv2, hec2, hb2⟩ := hmid.closedDone c2 h2
        have hc2c : c2.key ≠ c.key := by
          intro h
          rw [h, hcgnone] at hv2
          exact Option.noConfusion hv2
        rw [alookup_ainsert_ne _ _ _ _ hc2c]
        exact ⟨v2, ec2, hv2, hec2, hb2⟩
      · obtain rfl := List.mem_singleton.mp h2
        exact ⟨s.f_score + ec, ec, alookup_ainsert_self _ _ _, hec,
          Nat.le_refl _⟩
    · intro e he hne
      rcases mem_ainsert he with rfl | he2
      · refine ⟨s, s.f_score, ec, alookup_ainsert_self _ _ _,
          List.mem_append_right _ (List.mem_singleton.mpr rfl), hec, rfl,
          hnpg, ?_⟩
        rw [← expandChild_key_only]
        rw [show (((c.key, s.f_score + ec) : NK × Nat)).1.1 = c.pos from rfl]
        rw [hcn]
        rw [← expandChild_eq_nodeOf hcn]
      · obtain ⟨pn, pv, ec2, h1, h2, h3, h4, h5, h6⟩ :=
          hmid.parentOf e he2 hne
        have hek : (e : NK × Nat).1 ≠ c.key := by
          intro h
          have h8 : alookup stm.g_scores e.1 = some e.2 := by
            rcases hmid.recCases e he2 with ⟨v, hv⟩ | ⟨n, hn, hnk⟩
            · exact absurd (h ▸ hmid.popG (e.1, v) hv) (by
                intro h9
                rw [hcgnone] at h9
                exact Option.noConfusion h9)
            · exact absurd (h ▸ (hnk ▸ hmid.frontG n hn)) (by
                intro h9
                rw [hcgnone] at h9
                exact Option.noConfusion h9)
          rw [h, hcgnone] at h8
          exact Option.noConfusion h8
        rw [alookup_ainsert_ne _ _ _ _ hek]
        exact ⟨pn, pv, ec2, h1, h2, h3, h4, h5, h6⟩
    · intro i hi hne
      obtain ⟨pn, pv, h1, h2⟩ := hmid.parentEarlier i hi hne
      have hik : ((P ++ [(s.key, s.f_score)]).get ⟨i, hi⟩).1 ≠ c.key :=
        hpkc _ (List.get_mem _ _ _)
      rw [alookup_ainsert_ne _ _ _ _ hik]
      exact ⟨pn, pv, h1, h2⟩

theorem mid_final {city : Grid} {minR maxR : Nat} {start target : GridPos}
    {s : SearchNode} {P : List (NK × Nat)} {stm : SearchState}
    (hmid : MidInv city minR maxR start target s P stm
      (expandChildren city minR maxR s)) :
    Inv city minR maxR start target stm (P ++ [(s.key, s.f_score)])
      s.f_score := by
  refine ⟨hmid.gNodup, hmid.startG, hmid.startPar, hmid.frontG, hmid.frontGe,
    hmid.frontNodup, hmid.frontNotPopped, hmid.popG, hmid.popNotGoal,
    hmid.popLe, hmid.popNodup, hmid.recCases, hmid.recBound, ?_,
    hmid.parentOf, hmid.parentEarlier⟩
  intro e he np hnpg c hc
  rcases List.mem_append.mp he with he2 | he2
  · exact hmid.popClosedOld e he2 np hnpg c hc
  · obtain rfl := List.mem_singleton.mp he2
    have hcs : expandChild minR maxR s np = some c := by
      rw [expandChild_key_only]
      exact hc
    have hmem : c ∈ expandChildren city minR maxR s := by
      refine mem_expandChildren_iff.mpr ⟨np, ?_, hnpg, hcs⟩
      obtain ⟨-, -, -, d, hnp, -⟩ := expandChild_props hcs
      exact (mem_neighbours_iff _ _).mpr ⟨d, hnp⟩
    obtain ⟨v2, ec, hv2, hec, hb⟩ := hmid.closedDone c hmem
    exact ⟨v2, ec, hv2, hec, hb⟩

theorem inv_step {city : Grid} {minR maxR : Nat} {start target : GridPos}
    {st : SearchState} {P : List (NK × Nat)} {m : Nat} {s : SearchNode}
    {rest : List SearchNode} (hwf : GridWF city)
    (hinv : Inv city minR maxR start target st P m)
    (hpop : popMin st.frontier = some (s, rest))
    (hnacc : ¬(s.pos = target ∧ minR < s.previous_same_dirs.length)) :
    Inv city minR maxR start target (stepState city minR maxR s rest st)
      (P ++ [(s.key, s.f_score)]) s.f_score := by
  have hmid0 := inv_pop_mid hinv hpop hnacc
  have hfold : MidInv city minR maxR start target s P
      (stepState city minR maxR s rest st)
      (expandChildren city minR maxR s) := by
    unfold stepState
    refine foldl_ind (relaxChild city s)
      (fun stm done => MidInv city minR maxR start target s P stm done)
      (expandChildren city minR maxR s) (expandChildren city minR maxR s) []
      _ (by simp) hmid0 ?_
    intro acc d x t hsplit hM
    have hx : x ∈ expandChildren city minR maxR s := by
      rw [← hsplit]
      exact List.mem_append_right _ (List.mem_cons_self _ _)
    exact mid_relax hwf hM hx
  exact mid_final hfold

theorem reachable_inv {city : Grid} {minR maxR : Nat} {start target : GridPos}
    {st : SearchState} (hwf : GridWF city)
    (hreach : Reachable city minR maxR start target st) :
    ∃ P m, Inv city minR maxR start target st P m := by
  induction hreach with
  | init => exact ⟨[], 0, inv_init city minR maxR start target⟩
  | step hr hpop hnacc ih =>
    obtain ⟨P, m, hinv⟩ := ih
    exact ⟨_, _, inv_step hwf hinv hpop hnacc⟩

theorem walkCost_nil (city : Grid) : walkCost city [] = 0 := rfl

theorem walkCost_cons (city : Grid) (np : GridPos) (ms : List GridPos) :
    walkCost city (np :: ms) = (city.get np).getD 0 + walkCost city ms := by
  simp [walkCost]

theorem walkCost_append_one (city : Grid) (ms : List GridPos) (np : GridPos) :
    walkCost city (ms ++ [np]) = walkCost city ms + (city.get np).getD 0 := by
  simp [walkCost]

theorem nodeOf_key (k : NK) : (nodeOf k).key = k := rfl

theorem walkEnd_append_one (city : Grid) (minR maxR : Nat) :
    ∀ (ms : List GridPos) (k : NK) (np : GridPos),
      walkEnd city minR maxR k (ms ++ [np]) =
        (walkEnd city minR maxR k ms).bind (fun k2 =>
          if np.inGrid city = true then stepNK minR maxR k2 np else none) := by
  intro ms
  induction ms with
  | nil =>
    intro k np
    simp only [List.nil_append, walkEnd, Option.bind]
    by_cases hin : np.inGrid city = true
    · rw [if_pos hin, if_pos hin]
      rcases hs : stepNK minR maxR k np with _ | k2 <;> simp [walkEnd]
    · rw [if_neg hin, if_neg hin]
  | cons x ms ih =>
    intro k np
    simp only [List.cons_append, walkEnd]
    by_cases hin : x.inGrid city = true
    · rw [if_pos hin, if_pos hin]
      rcases hs : stepNK minR maxR k x with _ | k2
      · rfl
      · exact ih k2 np
    · rw [if_neg hin, if_neg hin]
      rfl

theorem nodup_assoc_eq {α : Type} {P : List (NK × α)} {k : NK} {v v2 : α}
    (hnd : (P.map Prod.fst).Nodup) (h1 : (k, v) ∈ P) (h2 : (k, v2) ∈ P) :
    v = v2 := by
  induction P with
  | nil => exact absurd h1 (by simp)
  | cons e t ih =>
    simp only [List.map_cons, List.nodup_cons] at hnd
    rcases List.mem_cons.mp h1 with rfl | h1t
    · rcases List.mem_cons.mp h2 with heq | h2t
      · exact (Prod.mk.injEq .. ▸ heq.symm).2
      · exact absurd (List.mem_map_of_mem Prod.fst h2t) hnd.1
    · rcases List.mem_cons.mp h2 with rfl | h2t
      · exact absurd (List.mem_map_of_mem Prod.fst h1t) hnd.1
      · exact ih hnd.2 h1t h2t

/-- The frontier-cut fact: under the invariant, every legal constrained
walk from the start state either has accumulated cost at least some
frontier priority, or ends in an already-popped state no cheaper than its
recorded cost. -/
theorem inv_cut {city : Grid} {minR maxR : Nat} {start target : GridPos}
    {st : SearchState} {P : List (NK × Nat)} {m : Nat}
    (hinv : Inv city minR maxR start target st P m) :
    ∀ (moves : List GridPos) (z : NK),
      walkEnd city minR maxR (startKey start) moves = some z →
      (∃ n ∈ st.frontier, n.f_score ≤ walkCost city moves) ∨
      (∃ v, (z, v) ∈ P ∧ v ≤ walkCost city moves) := by
  have cut_aux : ∀ (suffix : List GridPos) (k : NK) (acc : Nat),
      ((∃ v, (k, v) ∈ P ∧ v ≤ acc) ∨
        (∃ n ∈ st.frontier, n.key = k ∧ n.f_score ≤ acc)) →
      ∀ z, walkEnd city minR maxR k suffix = some z →
      (∃ n ∈ st.frontier, n.f_score ≤ acc + walkCost city suffix) ∨
      (∃ v, (z, v) ∈ P ∧ v ≤ acc + walkCost city suffix) := by
    intro suffix
    induction suffix with
    | nil =>
      intro k acc hk z hw
      obtain rfl : k = z := Option.some.inj hw
      rcases hk with ⟨v, hv, hvle⟩ | ⟨n, hn, hnk, hnle⟩
      · exact Or.inr ⟨v, hv, by rw [walkCost_nil]; omega⟩
      · exact Or.inl ⟨n, hn, by rw [walkCost_nil]; omega⟩
    | cons np suffix ih =>
      intro k acc hk z hw
      simp only [walkEnd] at hw
      by_cases hin : np.inGrid city = true
      · rw [if_pos hin] at hw
        rcases hs : stepNK minR maxR k np with _ | k2
        · rw [hs] at hw
          exact absurd hw (by simp)
        rw [hs] at hw
        rcases hk with ⟨v, hv, hvle⟩ | ⟨n, hn, hnk, hnle⟩
        · obtain ⟨c, hce, hck⟩ := Option.map_eq_some'.mp hs
          obtain ⟨v2, ec, hv2, hec, hb⟩ :=
            hinv.popClosed (k, v) hv np hin c hce
          have hcpos : c.pos = np := (expandChild_props
            (by rw [expandChild_key_only, nodeOf_key]; exact hce)).1
          have hecnp : (city.get np).getD 0 = ec := by
            rw [← hcpos, hec]
            rfl
          have hk2 : ((∃ v3, (k2, v3) ∈ P ∧ v3 ≤ acc + (city.get np).getD 0) ∨
              (∃ n ∈ st.frontier, n.key = k2 ∧
                n.f_score ≤ acc + (city.get np).getD 0)) := by
            subst hck
            rcases hinv.recCases (c.key, v2) (alookup_mem hv2) with
              ⟨v3, hv3⟩ | ⟨n, hn, hnk⟩
            · left
              have := hinv.popG (c.key, v3) hv3
              rw [hv2] at this
              obtain rfl := Option.some.inj this
              exact ⟨v2, hv3, by omega⟩
            · right
              have := hinv.frontG n hn
              rw [hnk, hv2] at this
              obtain rfl := Option.some.inj this
              exact ⟨n, hn, hnk, by omega⟩
          have hres := ih k2 (acc + (city.get np).getD 0) hk2 z hw
          rw [walkCost_cons]
          rcases hres with ⟨n, hn, hb2⟩ | ⟨v3, hv3, hb2⟩
          · exact Or.inl ⟨n, hn, by omega⟩
          · exact Or.inr ⟨v3, hv3, by omega⟩
        · exact Or.inl ⟨n, hn, by omega⟩
      · rw [if_neg hin] at hw
        exact absurd hw (by simp)
  intro moves z hw
  have hstart : ((∃ v, (startKey start, v) ∈ P ∧ v ≤ 0) ∨
      (∃ n ∈ st.frontier, n.key = startKey start ∧ n.f_score ≤ 0)) := by
    rcases hinv.recCases (startKey start, 0) (alookup_mem hinv.startG) with
      ⟨v, hv⟩ | ⟨n, hn, hnk⟩
    · left
      have := hinv.popG (startKey start, v) hv
      rw [hinv.startG] at this
      obtain rfl := Option.some.inj this
      exact ⟨0, hv, Nat.le_refl _⟩
    · right
      have := hinv.frontG n hn
      rw [hnk, hinv.startG] at this
      exact ⟨n, hn, hnk, Nat.le_of_eq (Option.some.inj this.symm)⟩
  have := cut_aux moves (startKey start) 0 hstart z hw
  simpa using this

theorem get_take_eq {α : Type} :
    ∀ (l : List α) (i j : Nat) (hj : j < (l.take i).length)
      (hjl : j < l.length), (l.take i).get ⟨j, hj⟩ = l.get ⟨j, hjl⟩ := by
  intro l
  induction l with
  | nil => intro i j hj hjl; exact absurd hjl (by simp)
  | cons a t ih =>
    intro i j hj hjl
    cases i with
    | zero => exact absurd hj (by simp)
    | succ i2 =>
      cases j with
      | zero => rfl
      | succ j2 =>
        simp only [List.take_succ_cons, List.get_cons_succ]
        exact ih i2 j2 (by simpa using hj) (by simpa using hjl)

/-- Soundness of the predecessor chain: backtracking from any popped
state (at index `i` of the pop history, with enough fuel) produces the
reverse of a legal constrained walk from the start whose accumulated
cost is exactly the state's recorded cost. -/
theorem chain_lemma {city : Grid} {minR maxR : Nat} {start target : GridPos}
    {st : SearchState} {P : List (NK × Nat)} {m : Nat}
    (hinv : Inv city minR maxR start target st P m) :
    ∀ (i : Nat), ∀ (hi : i < P.length) (n : SearchNode),
      n.key = (P.get ⟨i, hi⟩).1 → ∀ (fuel : Nat), i ≤ fuel →
      ∃ moves, walkEnd city minR maxR (startKey start) moves =
          some (P.get ⟨i, hi⟩).1 ∧
        walkCost city moves = (P.get ⟨i, hi⟩).2 ∧
        backtrackFrom st.parents fuel n = (start :: moves).reverse := by
  intro i
  induction i using Nat.strong_induction_on with
  | _ i ih =>
    intro hi n hkey fuel hfuel
    have hmemP : P.get ⟨i, hi⟩ ∈ P := List.get_mem _ _ _
    have hgk : alookup st.g_scores (P.get ⟨i, hi⟩).1 =
        some (P.get ⟨i, hi⟩).2 := by
      have := hinv.popG _ hmemP
      exact this
    by_cases hks : (P.get ⟨i, hi⟩).1 = startKey start
    · refine ⟨[], ?_, ?_, ?_⟩
      · rw [hks]
        rfl
      · have h0 : (P.get ⟨i, hi⟩).2 = 0 := by
          rw [hks] at hgk
          exact (Option.some.inj (hgk.symm.trans hinv.startG).symm).symm
        rw [walkCost_nil, h0]
      · have hb : alookup st.parents n.key = none := by
          rw [hkey, hks]
          exact hinv.startPar
        have hnp : n.pos = start := by
          have h2 := congrArg Prod.fst hkey
          rw [hks] at h2
          exact h2
        cases fuel <;> simp [backtrackFrom, hb, hnp]
    · obtain ⟨pn, pv, ec, hpar, hpvP, hec, hveq, hing, hedge⟩ :=
        hinv.parentOf _ (alookup_mem hgk) hks
      obtain ⟨pn2, pv2, hpar2, hmemtake⟩ := hinv.parentEarlier i hi hks
      have hpneq : pn2 = pn := Option.some.inj (hpar2.symm.trans hpar)
      rw [hpneq] at hmemtake
      obtain ⟨⟨j, hj⟩, hget⟩ := List.mem_iff_get.mp hmemtake
      have hjlt : j < i := by
        have h2 := hj
        simp only [List.length_take] at h2
        omega
      have hjP : j < P.length := by omega
      have hgetP : P.get ⟨j, hjP⟩ = (pn.key, pv2) := by
        rw [← hget]
        exact (get_take_eq P i j hj hjP).symm
      have hpv2 : pv2 = pv :=
        nodup_assoc_eq hinv.popNodup (List.take_subset _ _ hmemtake) hpvP
      rcases fuel with _ | f
      · omega
      obtain ⟨moves2, hw2, hc2, hb2⟩ := ih j hjlt hjP pn
        (by rw [hgetP]) f (by omega)
      refine ⟨moves2 ++ [(P.get ⟨i, hi⟩).1.1], ?_, ?_, ?_⟩
      · rw [walkEnd_append_one, hw2]
        have hend : (P.get ⟨j, hjP⟩).1 = pn.key := by rw [hgetP]
        rw [hend]
        simp only [Option.bind]
        rw [if_pos hing]
        unfold stepNK
        rw [hedge]
        rfl
      · rw [walkCost_append_one, hc2]
        have hv2 : (P.get ⟨j, hjP⟩).2 = pv := by rw [hgetP]; exact hpv2
        have hECD : (city.get (P.get ⟨i, hi⟩).1.1).getD 0 = ec := by
          rw [hec]
          rfl
        rw [hv2, hECD, ← hveq]
      · have hlp : alookup st.parents n.key = some pn := by
          rw [hkey]
          exact hpar
        have hnp : n.pos = (P.get ⟨i, hi⟩).1.1 := congrArg Prod.fst hkey
        have hstep2 : backtrackFrom st.parents (f + 1) n =
            n.pos :: backtrackFrom st.parents f pn := by
          simp [backtrackFrom, hlp]
        rw [hstep2, hb2, hnp]
        simp

/-- The central optimality lemma: when the loop, started from any state
satisfying the invariant, answers with a path, that path reversed is a
legal constrained walk from the start whose accumulated cost is minimal
among all legal accepted walks. -/
theorem loop_found_opt {city : Grid} {minR maxR : Nat}
    {start target : GridPos} (hwf : GridWF city) :
    ∀ (fuel : Nat) (st : SearchState) (P : List (NK × Nat)) (m : Nat),
      Inv city minR maxR start target st P m →
      ∀ (p : List GridPos),
      findPathLoop city minR maxR target fuel st = .found p →
      ∃ moves z,
        p = (start :: moves).reverse ∧
        walkEnd city minR maxR (startKey start) moves = some z ∧
        z.1 = target ∧ minR < z.2.length ∧
        (∀ q qz, walkEnd city minR maxR (startKey start) q = some qz →
          qz.1 = target → minR < qz.2.length →
          walkCost city moves ≤ walkCost city q) := by
  intro fuel
  induction fuel with
  | zero =>
    intro st P m hinv p hfound
    exact absurd hfound (by simp [findPathLoop])
  | succ f ih =>
    intro st P m hinv p hfound
    rcases hpop : popMin st.frontier with _ | sr
    · rw [findPathLoop_succ_none city minR maxR target f st hpop] at hfound
      exact SearchResult.noConfusion hfound
    obtain ⟨s, rest⟩ := sr
    rw [findPathLoop_succ_some city minR maxR target f st s rest hpop]
      at hfound
    split_ifs at hfound with hacc
    · have hp : p = backtrackFrom st.parents st.g_scores.length s :=
        (SearchResult.found.inj hfound).symm
      have hperm := popMin_perm hpop
      have hs : s ∈ st.frontier := hperm.mem_iff.mpr (List.mem_cons_self _ _)
      have hsg : alookup st.g_scores s.key = some s.f_score :=
        hinv.frontG s hs
      have hknstart : s.key ≠ startKey start := by
        intro h
        have h3 : s.previous_same_dirs = [] := congrArg Prod.snd h
        rw [h3] at hacc
        simp at hacc
      obtain ⟨pn, pv, ec, hpar, hpvP, hec, hveq, hing, hedge⟩ :=
        hinv.parentOf _ (alookup_mem hsg) hknstart
      obtain ⟨⟨j, hj⟩, hget⟩ := List.mem_iff_get.mp hpvP
      have hPle : P.length ≤ st.g_scores.length := by
        have hsub : (P.map Prod.fst) ⊆ (st.g_scores.map Prod.fst) := by
          intro k hk
          obtain ⟨e, he, rfl⟩ := List.mem_map.mp hk
          exact List.mem_map_of_mem Prod.fst (alookup_mem (hinv.popG e he))
        have hsp := List.subperm_of_subset hinv.popNodup hsub
        have := hsp.length_le
        simpa using this
      have hglen : 1 ≤ st.g_scores.length :=
        List.length_pos.mpr (List.ne_nil_of_mem (alookup_mem hsg))
      obtain ⟨moves2, hw2, hc2, hb2⟩ := chain_lemma hinv j hj pn
        (by rw [hget]) (st.g_scores.length - 1) (by omega)
      have hcost : walkCost city (moves2 ++ [s.key.1]) = s.f_score := by
        rw [walkCost_append_one, hc2, hget]
        have hECD : (city.get s.key.1).getD 0 = ec := by
          rw [hec]
          rfl
        rw [hECD, ← hveq]
      refine ⟨moves2 ++ [s.key.1], s.key, ?_, ?_, hacc.1, hacc.2, ?_⟩
      · rw [hp]
        have hg2 : st.g_scores.length = (st.g_scores.length - 1) + 1 := by
          omega
        rw [hg2]
        have hstep2 : backtrackFrom st.parents
            ((st.g_scores.length - 1) + 1) s =
            s.pos :: backtrackFrom st.parents (st.g_scores.length - 1) pn := by
          simp [backtrackFrom, hpar]
        rw [hstep2, hb2]
        simp [SearchNode.key]
      · rw [walkEnd_append_one, hw2]
        have hend : (P.get ⟨j, hj⟩).1 = pn.key := by rw [hget]
        rw [hend]
        simp only [Option.bind]
        rw [if_pos hing]
        unfold stepNK
        rw [hedge]
        rfl
      · intro q qz hq hqt hql
        rw [hcost]
        rcases inv_cut hinv q qz hq with ⟨n, hn, hnle⟩ | ⟨v, hvP, hvle⟩
        · exact Nat.le_trans (popMin_min hpop n hn) hnle
        · exact absurd ⟨hqt, hql⟩ (hinv.popNotGoal (qz, v) hvP)
    · exact ih (stepState city minR maxR s rest st)
        (P ++ [(s.key, s.f_score)]) s.f_score
        (inv_step hwf hinv hpop hacc) p hfound

theorem pathHeat_eq_heat_rev (city : Grid) (l : List GridPos) :
    pathHeat city l = heatFromStart city l.reverse := by
  unfold pathHeat heatFromStart
  rw [List.drop_one, List.tail_reverse_eq_reverse_dropLast, List.map_reverse,
    List.sum_reverse]

/-- C1: whenever the constrained search returns a path, that path
(reversed, so running start-first) is a legal path under the no-reverse,
`minRun` and `maxRun` rules ending at the goal with final run longer than
`minRun`, and the sum of the costs of every cell entered along it (the
start cell excluded, exactly as `min_heat` sums it) is minimal among all
such paths — the cost is optimal even though the exact path on ties is
implementation-defined. -/
theorem find_path_cost_optimal (city : Grid) (start target : GridPos)
    (minR maxR fuel : Nat) (p : List GridPos) (hwf : GridWF city)
    (hrun : find_path city start target minR maxR fuel = .found p) :
    ValidConstrainedPath city minR maxR start target p.reverse ∧
    pathHeat city p = heatFromStart city p.reverse ∧
    ∀ q, ValidConstrainedPath city minR maxR start target q →
      pathHeat city p ≤ heatFromStart city q := by
  obtain ⟨moves, z, hp, hw, hzt, hzl, hmin⟩ := loop_found_opt hwf fuel
    (initState start) [] 0 (inv_init city minR maxR start target) p hrun
  have hprev : p.reverse = start :: moves := by
    rw [hp]
    simp
  refine ⟨⟨moves, z, hprev, hw, hzt, hzl⟩, pathHeat_eq_heat_rev city p, ?_⟩
  intro q hq
  obtain ⟨qm, qz, hq1, hq2, hq3, hq4⟩ := hq
  have h1 : heatFromStart city q = walkCost city qm := by
    rw [hq1]
    rfl
  have h2 : pathHeat city p = walkCost city moves := by
    rw [pathHeat_eq_heat_rev city p, hprev]
    rfl
  rw [h1, h2]
  exact hmin qm qz hq2 hq3 hq4

theorem find_path_cost_optimal_witness :
    GridWF ⟨2, 2, [1, 2, 3, 4]⟩ ∧
    find_path ⟨2, 2, [1, 2, 3, 4]⟩ ⟨0, 0⟩ ⟨1, 1⟩ 0 3 20 =
      .found [⟨1, 1⟩, ⟨1, 0⟩, ⟨0, 0⟩] ∧
    (ValidConstrainedPath ⟨2, 2, [1, 2, 3, 4]⟩ 0 3 ⟨0, 0⟩ ⟨1, 1⟩
        ([⟨1, 1⟩, ⟨1, 0⟩, ⟨0, 0⟩] : List GridPos).reverse ∧
      pathHeat ⟨2, 2, [1, 2, 3, 4]⟩ [⟨1, 1⟩, ⟨1, 0⟩, ⟨0, 0⟩] =
        heatFromStart ⟨2, 2, [1, 2, 3, 4]⟩
          ([⟨1, 1⟩, ⟨1, 0⟩, ⟨0, 0⟩] : List GridPos).reverse ∧
      ∀ q, ValidConstrainedPath ⟨2, 2, [1, 2, 3, 4]⟩ 0 3 ⟨0, 0⟩ ⟨1, 1⟩ q →
        pathHeat ⟨2, 2, [1, 2, 3, 4]⟩ [⟨1, 1⟩, ⟨1, 0⟩, ⟨0, 0⟩] ≤
          heatFromStart ⟨2, 2, [1, 2, 3, 4]⟩ q) :=
  ⟨rfl, by rfl,
    find_path_cost_optimal ⟨2, 2, [1, 2, 3, 4]⟩ ⟨0, 0⟩ ⟨1, 1⟩ 0 3 20
      [⟨1, 1⟩, ⟨1, 0⟩, ⟨0, 0⟩] rfl (by rfl)⟩

theorem mem_allRuns : ∀ (n : Nat) (l : List Dir), l.length ≤ n →
    l ∈ allRuns n := by
  intro n
  induction n with
  | zero =>
    intro l hl
    have h0 : l = [] := List.eq_nil_of_length_eq_zero (Nat.le_zero.mp hl)
    subst h0
    simp [allRuns]
  | succ j ih =>
    intro l hl
    by_cases hlen : l.length ≤ j
    · exact List.mem_append_left _ (ih l hlen)
    · have hexact : l.length = j + 1 := by omega
      have hne : l ≠ [] := by
        intro h
        rw [h] at hexact
        simp only [List.length_nil] at hexact
        omega
      refine List.mem_append_right _ ?_
      rw [List.mem_bind]
      refine ⟨l.dropLast, ?_, ?_⟩
      · rw [List.mem_filter]
        refine ⟨ih _ (by rw [List.length_dropLast]; omega), ?_⟩
        simp only [decide_eq_true_eq, List.length_dropLast, hexact]
        omega
      · rw [List.mem_map]
        refine ⟨l.getLast hne, ?_, List.dropLast_append_getLast hne⟩
        cases hd : l.getLast hne <;> simp

theorem mem_gridPositions {city : Grid} {p : GridPos}
    (hp : p.inGrid city = true) : p ∈ gridPositions city := by
  simp only [GridPos.inGrid, decide_eq_true_eq] at hp
  obtain ⟨hx0, hxw, hy0, hyh⟩ := hp
  unfold gridPositions
  rw [List.mem_bind]
  refine ⟨p.y.toNat, ?_, ?_⟩
  · rw [List.mem_range]
    omega
  · rw [List.mem_map]
    refine ⟨p.x.toNat, ?_, ?_⟩
    · rw [List.mem_range]
      omega
    · cases p with
      | mk px py =>
        simp only at hx0 hxw hy0 hyh ⊢
        rw [GridPos.mk.injEq]
        exact ⟨Int.toNat_of_nonneg hx0, Int.toNat_of_nonneg hy0⟩

theorem mem_keyUniverse {city : Grid} {maxR : Nat} {p : GridPos}
    {r : List Dir} (hp : p.inGrid city = true) (hr : r.length ≤ maxR) :
    (p, r) ∈ keyUniverse city maxR := by
  unfold keyUniverse
  rw [List.mem_bind]
  exact ⟨p, mem_gridPositions hp,
    List.mem_map.mpr ⟨r, mem_allRuns maxR r hr, rfl⟩⟩

theorem countP_flip_lt {α : Type} {p q : α → Bool} :
    ∀ (U : List α) (k : α), k ∈ U → p k = true → q k = false →
      (∀ x, q x = true → p x = true) → U.countP q < U.countP p := by
  intro U
  induction U with
  | nil =>
    intro k hk _ _ _
    exact absurd hk (List.not_mem_nil k)
  | cons a t ih =>
    intro k hk hpk hqk hmono
    rw [List.countP_cons, List.countP_cons]
    have hcle : t.countP q ≤ t.countP p :=
      List.countP_mono_left (fun x _ hx => hmono x hx)
    rcases List.mem_cons.mp hk with rfl | hk2
    · have h1 : (if q k = true then 1 else 0) = 0 := by
        rw [hqk]
        decide
      have h2 : (if p k = true then 1 else 0) = 1 := by
        rw [hpk]
        decide
      omega
    · have hrec := ih k hk2 hpk hqk hmono
      have h1 : (if q a = true then 1 else 0) ≤
          (if p a = true then 1 else 0) := by
        cases hqa : q a
        · simp
        · rw [hmono a hqa]
      omega

theorem unrecorded_ainsert_lt {city : Grid} {maxR : Nat}
    {g : List (NK × Nat)} {k : NK} (v : Nat)
    (hk : k ∈ keyUniverse city maxR) (hnone : alookup g k = none) :
    unrecorded city maxR (ainsert g k v) < unrecorded city maxR g := by
  unfold unrecorded
  refine countP_flip_lt _ k hk ?_ ?_ ?_
  · rw [hnone]
    rfl
  · rw [alookup_ainsert_self]
    rfl
  · intro x hx
    by_cases hxk : x = k
    · subst hxk
      rw [alookup_ainsert_self] at hx
      exact absurd hx (by simp)
    · rw [alookup_ainsert_ne _ _ _ _ hxk] at hx
      exact hx

theorem relax_measure {city : Grid} {minR maxR : Nat} {start target : GridPos}
    {s : SearchNode} {P : List (NK × Nat)} {stm : SearchState}
    {done : List SearchNode} {c : SearchNode} (hwf : GridWF city)
    (hmid : MidInv city minR maxR start target s P stm done)
    (hsb : s.previous_same_dirs.length ≤ maxR)
    (hc : c ∈ expandChildren city minR maxR s) :
    loopMeasure city maxR (relaxChild city s stm c) ≤
      loopMeasure city maxR stm := by
  obtain ⟨np, hnpn, hnpg, hcn⟩ := mem_expandChildren_iff.mp hc
  obtain ⟨hcpos, hcf, hcnn, -⟩ := expandChild_props hcn
  obtain rfl : np = c.pos := hcpos.symm
  obtain ⟨ec, hec⟩ := inGrid_get_isSome hwf hnpg
  have hcknstart : c.key ≠ startKey start := by
    have h2 := expandChild_key_ne_start (p := start) hcn
    rw [startNode_key] at h2
    exact h2
  have hbound : ∀ eg, alookup stm.g_scores c.key = some eg →
      eg ≤ s.f_score + ec := by
    intro eg heg
    obtain ⟨ec2, hec2, hb⟩ := hmid.recBound (c.key, eg) (alookup_mem heg)
      hcknstart
    have hee : ec2 = ec := Option.some.inj (hec2.symm.trans hec)
    omega
  rcases relax_analysis city stm s c s.f_score ec hmid.sG hec hmid.frontG
      hbound with ⟨eg, hcg, hegle, hform⟩ | ⟨hcgnone, hform⟩
  · rw [hform]
  · rw [hform]
    have hkey : c.key ∈ keyUniverse city maxR :=
      mem_keyUniverse hnpg (expandChild_len_le hsb hcn)
    have hlt := unrecorded_ainsert_lt (s.f_score + ec) hkey hcgnone
    show unrecorded city maxR (ainsert stm.g_scores c.key (s.f_score + ec)) +
        (stm.frontier ++ [{ c with f_score := s.f_score + ec }]).length ≤
        unrecorded city maxR stm.g_scores + stm.frontier.length
    rw [List.length_append]
    simp only [List.length_singleton]
    omega

theorem step_measure {city : Grid} {minR maxR : Nat} {start target : GridPos}
    {st : SearchState} {P : List (NK × Nat)} {m : Nat} {s : SearchNode}
    {rest : List SearchNode} (hwf : GridWF city)
    (hinv : Inv city minR maxR start target st P m)
    (hsb : s.previous_same_dirs.length ≤ maxR)
    (hpop : popMin st.frontier = some (s, rest))
    (hnacc : ¬(s.pos = target ∧ minR < s.previous_same_dirs.length)) :
    loopMeasure city maxR (stepState city minR maxR s rest st) <
      loopMeasure city maxR st := by
  have hmid0 := inv_pop_mid hinv hpop hnacc
  have hlen := (popMin_perm hpop).length_eq
  simp only [List.length_cons] at hlen
  have hfold :
      MidInv city minR maxR start target s P
        (stepState city minR maxR s rest st)
        (expandChildren city minR maxR s) ∧
      loopMeasure city maxR (stepState city minR maxR s rest st) ≤
        loopMeasure city maxR { st with frontier := rest } := by
    unfold stepState
    refine foldl_ind (relaxChild city s)
      (fun stm done => MidInv city minR maxR start target s P stm done ∧
        loopMeasure city maxR stm ≤
          loopMeasure city maxR { st with frontier := rest })
      (expandChildren city minR maxR s) (expandChildren city minR maxR s) []
      _ (by simp) ⟨hmid0, Nat.le_refl _⟩ ?_
    intro acc d x t hsplit hM
    obtain ⟨hm, hle⟩ := hM
    have hx : x ∈ expandChildren city minR maxR s := by
      rw [← hsplit]
      exact List.mem_append_right _ (List.mem_cons_self _ _)
    exact ⟨mid_relax hwf hm hx,
      Nat.le_trans (relax_measure hwf hm hsb hx) hle⟩
  have h2 : loopMeasure city maxR (stepState city minR maxR s rest st) ≤
      unrecorded city maxR st.g_scores + rest.length := hfold.2
  have h4 : loopMeasure city maxR st =
      unrecorded city maxR st.g_scores + st.frontier.length := rfl
  omega

theorem loop_terminates {city : Grid} {minR maxR : Nat}
    {start target : GridPos} (hwf : GridWF city) :
    ∀ (μ : Nat) (st : SearchState) (P : List (NK × Nat)) (m : Nat),
      Inv city minR maxR start target st P m →
      Reachable city minR maxR start target st →
      loopMeasure city maxR st ≤ μ →
      findPathLoop city minR maxR target (μ + 1) st ≠ .outOfFuel := by
  intro μ
  induction μ with
  | zero =>
    intro st P m hinv hreach hle
    rcases hpop : popMin st.frontier with _ | ⟨s, rest⟩
    · rw [findPathLoop_succ_none city minR maxR target 0 st hpop]
      exact fun h => SearchResult.noConfusion h
    · exfalso
      have hlen := (popMin_perm hpop).length_eq
      simp only [List.length_cons] at hlen
      have hmeq : loopMeasure city maxR st =
          unrecorded city maxR st.g_scores + st.frontier.length := rfl
      omega
  | succ j ih =>
    intro st P m hinv hreach hle
    rcases hpop : popMin st.frontier with _ | ⟨s, rest⟩
    · rw [findPathLoop_succ_none city minR maxR target (j + 1) st hpop]
      exact fun h => SearchResult.noConfusion h
    · rw [findPathLoop_succ_some city minR maxR target (j + 1) st s rest hpop]
      split_ifs with hacc
      · exact fun h => SearchResult.noConfusion h
      · have hs : s ∈ st.frontier :=
          (popMin_perm hpop).mem_iff.mpr (List.mem_cons_self _ _)
        have hsb : s.previous_same_dirs.length ≤ maxR :=
          (reachable_nodesBounded hreach).1 s hs
        have hdec := step_measure hwf hinv hsb hpop hacc
        exact ih (stepState city minR maxR s rest st)
          (P ++ [(s.key, s.f_score)]) s.f_score
          (inv_step hwf hinv hpop hacc)
          (Reachable.step hreach hpop hacc) (by omega)

theorem findPathLoop_stable (city : Grid) (minR maxR : Nat)
    (target : GridPos) :
    ∀ (fuel : Nat) (st : SearchState),
      findPathLoop city minR maxR target fuel st ≠ .outOfFuel →
      findPathLoop city minR maxR target (fuel + 1) st =
        findPathLoop city minR maxR target fuel st := by
  intro fuel
  induction fuel with
  | zero =>
    intro st h
    exact absurd rfl h
  | succ j ih =>
    intro st h
    rcases hpop : popMin st.frontier with _ | ⟨s, rest⟩
    · rw [findPathLoop_succ_none city minR maxR target (j + 1) st hpop,
        findPathLoop_succ_none city minR maxR target j st hpop]
    · rw [findPathLoop_succ_some city minR maxR target (j + 1) st s rest hpop,
        findPathLoop_succ_some city minR maxR target j st s rest hpop]
      split_ifs with hacc
      · rfl
      · apply ih
        rw [findPathLoop_succ_some city minR maxR target j st s rest hpop,
          if_neg hacc] at h
        exact h

theorem noPath_empties (city : Grid) (minR maxR : Nat) (target : GridPos) :
    ∀ (fuel : Nat) (st : SearchState),
      findPathLoop city minR maxR target fuel st = .noPath →
      FrontierEmpties city minR maxR target st := by
  intro fuel
  induction fuel with
  | zero =>
    intro st h
    exact absurd h (by simp [findPathLoop])
  | succ j ih =>
    intro st h
    rcases hpop : popMin st.frontier with _ | ⟨s, rest⟩
    · exact FrontierEmpties.empty hpop
    · rw [findPathLoop_succ_some city minR maxR target j st s rest hpop] at h
      by_cases hacc : s.pos = target ∧ minR < s.previous_same_dirs.length
      · rw [if_pos hacc] at h
        exact SearchResult.noConfusion h
      · rw [if_neg hacc] at h
        exact FrontierEmpties.step hpop hacc (ih _ h)

theorem empties_noPath (city : Grid) (minR maxR : Nat) (target : GridPos)
    {st : SearchState} (h : FrontierEmpties city minR maxR target st) :
    ∃ fuel, findPathLoop city minR maxR target fuel st = .noPath := by
  induction h with
  | empty hpop =>
    exact ⟨1, findPathLoop_succ_none city minR maxR target 0 _ hpop⟩
  | step hpop hacc hrec ih =>
    obtain ⟨fuel, hfuel⟩ := ih
    refine ⟨fuel + 1, ?_⟩
    rw [findPathLoop_succ_some city minR maxR target fuel _ _ _ hpop,
      if_neg hacc]
    exact hfuel

/-- C8: the search always comes to an answer — with fuel one past the
initial loop measure the embedded loop never runs out, because the measure
strictly drops every iteration — the answer is stable under extra fuel
(so the fuel is an artifact of the embedding, not of the program), and the
"no path" answer, a normal value distinct from the found case, is produced
exactly when the frontier empties without any popped state passing the
goal test. -/
theorem termination_and_no_path (city : Grid) (start target : GridPos)
    (minR maxR : Nat) (hwf : GridWF city) :
    find_path city start target minR maxR
        (loopMeasure city maxR (initState start) + 1) ≠ .outOfFuel ∧
    (∀ fuel,
      findPathLoop city minR maxR target fuel (initState start) ≠
        .outOfFuel →
      findPathLoop city minR maxR target (fuel + 1) (initState start) =
        findPathLoop city minR maxR target fuel (initState start)) ∧
    ((∃ fuel, find_path city start target minR maxR fuel = .noPath) ↔
      FrontierEmpties city minR maxR target (initState start)) := by
  refine ⟨?_, ?_, ?_, ?_⟩
  · exact loop_terminates hwf (loopMeasure city maxR (initState start))
      (initState start) [] 0 (inv_init city minR maxR start target)
      Reachable.init (Nat.le_refl _)
  · intro fuel
    exact findPathLoop_stable city minR maxR target fuel (initState start)
  · rintro ⟨fuel, hfuel⟩
    exact noPath_empties city minR maxR target fuel (initState start) hfuel
  · intro hfe
    exact empties_noPath city minR maxR target hfe

theorem termination_and_no_path_witness :
    GridWF ⟨1, 1, [5]⟩ ∧
    (find_path ⟨1, 1, [5]⟩ ⟨0, 0⟩ ⟨0, 0⟩ 0 1
        (loopMeasure ⟨1, 1, [5]⟩ 1 (initState ⟨0, 0⟩) + 1) ≠ .outOfFuel ∧
     (∀ fuel,
       findPathLoop ⟨1, 1, [5]⟩ 0 1 ⟨0, 0⟩ fuel (initState ⟨0, 0⟩) ≠
         .outOfFuel →
       findPathLoop ⟨1, 1, [5]⟩ 0 1 ⟨0, 0⟩ (fuel + 1) (initState ⟨0, 0⟩) =
         findPathLoop ⟨1, 1, [5]⟩ 0 1 ⟨0, 0⟩ fuel (initState ⟨0, 0⟩)) ∧
     ((∃ fuel, find_path ⟨1, 1, [5]⟩ ⟨0, 0⟩ ⟨0, 0⟩ 0 1 fuel = .noPath) ↔
       FrontierEmpties ⟨1, 1, [5]⟩ 0 1 ⟨0, 0⟩ (initState ⟨0, 0⟩))) :=
  ⟨rfl, termination_and_no_path ⟨1, 1, [5]⟩ ⟨0, 0⟩ ⟨0, 0⟩ 0 1 rfl⟩

end Day17
